import Mathlib

/-!
Verification development for a streaming wildcard pattern matcher built from an
Aho–Corasick machine over the pattern's maximal non-wildcard segments.

The program has two realizations:
* a pointer-based trie (`17.cpp`) whose goto function is completed lazily during
  matching (memoized failure walks), and
* a flattened-array machine (`17_double_array_trie.cpp`) whose goto function is
  completed eagerly by a second BFS (`do_bfs`) and whose `main` drives a flat
  transition table with a circular counter window of size 8192.

Symbols are modelled as `Nat` (bytes read via `getchar`), trie states by their
path label from the root (`List Nat`): in both source files a trie node is
created at most once per label and node identity coincides with the label.
Machine integers (`int`, `short`) are modelled as `Int`/`Nat`; within the
program's stated bounds (m <= 5000, n <= 2000000) no overflow can occur.
Loops whose termination is data-dependent (the failure walks) are modelled with
an explicit fuel parameter, and we prove that the fuel chosen in the wrapper
definitions is always sufficient.
-/

/-- The wildcard symbol `?` (ASCII 63) tested by `c == '?'` in `split_to_words`
in both source files. -/
def wildcard : Nat := 63

/-- Translation of the loop of `PatternMatchingMachine::split_to_words`
(identical in both source files).  `pos` is the 0-based index of the previously
scanned character (initially `-1`, as in the source); `word` is the current
accumulated segment, `acc` the list of closed `(segment, end_offset)` pairs.
A wildcard closes a non-empty current segment, recording `pos` (the index of
the segment's last character); after the scan a non-empty trailing segment is
closed with `pos = pattern length - 1`. -/
def split_go (pos : Int) (word : List Nat) (acc : List (List Nat × Int)) :
    List Nat → List (List Nat × Int)
  | [] => if word = [] then acc else acc ++ [(word, pos)]
  | c :: cs =>
    if c = wildcard then
      if word = [] then split_go (pos + 1) [] acc cs
      else split_go (pos + 1) [] (acc ++ [(word, pos)]) cs
    else split_go (pos + 1) (word ++ [c]) acc cs

/-- Translation of `PatternMatchingMachine::split_to_words`. -/
def split_to_words (pattern : List Nat) : List (List Nat × Int) :=
  split_go (-1) [] [] pattern

/-- A trie state, identified by its path label from the root. -/
abbrev Label := List Nat

/-- The table of goto edges: each entry maps a `(state, symbol)` pair to the
successor state.  For the pointer implementation this models the union of all
`links` maps of the trie nodes (`std::unordered_map<char, Node*>`); entries are
only ever added, never removed or overwritten. -/
abbrev LinkTable := List ((Label × Nat) × Label)

/-- Lookup of `state->links.at(c)`: the first (and, by construction, only)
entry for the key `(s, c)`. -/
def lookupL (L : LinkTable) (s : Label) (c : Nat) : Option Label :=
  (L.find? (fun pr => decide (pr.1 = (s, c)))).map (·.2)

/-- The data built by the `Trie` base class: the set of allocated nodes (by
label), the goto edges, the labels marked terminal, and the `(node, index)`
pairs inserted into `output` sets by `add_word` (the "own" outputs, before
failure-link propagation). -/
structure TrieData where
  nodes : List Label
  links : LinkTable
  term : List Label
  outPairs : List (Label × Int)

/-- Translation of the walking loop of `Trie::add_word`: follow existing edges,
creating missing nodes (`new Node()`) and edges on the way; returns the updated
trie together with the final node reached. -/
def add_word_go : TrieData → Label → List Nat → TrieData × Label
  | t, s, [] => (t, s)
  | t, s, c :: cs =>
    match lookupL t.links s c with
    | some v => add_word_go t v cs
    | none =>
      add_word_go
        { t with nodes := t.nodes ++ [s ++ [c]], links := t.links ++ [((s, c), s ++ [c])] }
        (s ++ [c]) cs

/-- Translation of `Trie::add_word`: walk/create the path of `word` from the
root, then mark the final node terminal and insert `ind` into its output. -/
def add_word (t : TrieData) (word : List Nat) (ind : Int) : TrieData :=
  let r := add_word_go t [] word
  { r.1 with term := r.1.term ++ [r.2], outPairs := r.1.outPairs ++ [(r.2, ind)] }

/-- The freshly initialized trie: a single root node with empty label. -/
def initTrie : TrieData := ⟨[[]], [], [], []⟩

/-- The trie after the `add_word` loop of `PatternMatchingMachine::build`:
every segment produced by `split_to_words` is inserted with its end offset as
index. -/
def buildTrie (pattern : List Nat) : TrieData :=
  (split_to_words pattern).foldl (fun t pr => add_word t pr.1 pr.2) initTrie

/-- The segment strings of a pattern. -/
def wordsK (pattern : List Nat) : List Label :=
  (split_to_words pattern).map (·.1)

/-- Decidable test that `s` is a state of the trie built for `pattern`: the
root, or a non-empty prefix of one of the segments.  `isNodeB_iff_mem_nodes`
proves that this agrees with membership in `(buildTrie pattern).nodes`. -/
def isNodeB (pattern : List Nat) (s : Label) : Bool :=
  s.isEmpty || (wordsK pattern).any (fun w => !s.isEmpty && s.isPrefixOf w)

/-- The build-time goto function `PatternMatchingMachine::goto_`: follow a trie
edge if present; from the root every symbol has a successor (the root itself if
no edge exists); otherwise the undefined sentinel (`nullptr` in `17.cpp`,
node id `0` in the flat file).  `gotoN_eq_lookup` proves this equal to looking
up the built link table. -/
def gotoN (pattern : List Nat) (s : Label) (c : Nat) : Option Label :=
  if isNodeB pattern (s ++ [c]) then some (s ++ [c])
  else if s = [] then some [] else none

/-- The lookup-based goto used while matching in `17.cpp`: the node's `links`
table (trie edges plus memoized completions) is consulted first; from the root
a missing edge yields the root itself; otherwise the sentinel `nullptr`. -/
def gotoMemo (L : LinkTable) (s : Label) (c : Nat) : Option Label :=
  match lookupL L s c with
  | some t => some t
  | none => if s = [] then some [] else none

/-- One failure walk (the `while (goto_(state, c) == nullptr) state =
state->link_fail;` loop followed by `goto_(state, c)`), parameterized by the
goto function `g` and the failure function `f` in effect, with explicit fuel.
Used both for `build_failure` (Algorithm 3) and, via `deltaAC`, for the table
completion of `do_bfs` (Algorithm 4). -/
def gstarAux (g : Label → Nat → Option Label) (f : Label → Label) :
    Nat → Label → Nat → Label
  | 0, _, _ => []
  | fuel + 1, t, c =>
    match g t c with
    | some r => r
    | none => gstarAux g f fuel (f t) c

/-- The failure links computed by `PatternMatchingMachine::build_failure`.
The BFS processes states in order of increasing depth, so when the edge from
`s.dropLast` to `s` is processed, the failure link of `s.dropLast` is already
final; the recursion mirrors this: direct children of the root (and the root
itself, whose `link_fail` stays null and is modelled as the root) get the root,
and a deeper state `s` gets the result of the failure walk started at its
parent's failure link.  Fuel decreases on every recursive call; `failAux_eq`
proves that the fuel supplied by `failAC` is sufficient. -/
def failAux (pattern : List Nat) : Nat → Label → Label
  | 0, _ => []
  | fuel + 1, s =>
    if s.length ≤ 1 then []
    else gstarAux (gotoN pattern) (failAux pattern fuel) fuel
      (failAux pattern fuel s.dropLast) (s.getLastD 0)

/-- The failure link of a state, as built by `build_failure`. -/
def failAC (pattern : List Nat) (s : Label) : Label :=
  failAux pattern (s.length + 1) s

/-- Specification of the failure link: the longest proper suffix of `s` that is
again a trie state (`failAux_eq` proves `failAC = failSpec`). -/
def failSpec (pattern : List Nat) (s : Label) : Label :=
  ((s.tails.drop 1).filter (isNodeB pattern)).headD []

/-- Specification of a completed transition from a state `s`: follow the symbol
`c` from the deepest state in the failure chain of `s` (including `s` itself)
that has a trie edge on `c`; the root if there is none. -/
def extN (pattern : List Nat) (s : Label) (c : Nat) : Label :=
  match (s.tails.filter
      (fun t => isNodeB pattern t && isNodeB pattern (t ++ [c]))).head? with
  | some t => t ++ [c]
  | none => []

/-- The state of the machine after reading a text prefix `u`: the longest
suffix of `u` that is a trie state. -/
def reachSpec (pattern : List Nat) (u : List Nat) : Label :=
  (u.tails.filter (isNodeB pattern)).headD []

/-- The completed transition function produced by `do_bfs` (Algorithm 4 of the
flat implementation): a missing edge of a state is filled with the completed
transition of the state's failure link, which the BFS order guarantees is
already total; the unfolding of that recursion is exactly the failure walk. -/
def deltaAC (pattern : List Nat) (s : Label) (c : Nat) : Label :=
  gstarAux (gotoN pattern) (failAC pattern) (s.length + 1) s c

/-- The own output entries of a node inserted by `add_word`. -/
def ownOut (pattern : List Nat) (s : Label) : Finset Int :=
  (((buildTrie pattern).outPairs.filter (fun pr => decide (pr.1 = s))).map (·.2)).toFinset

/-- The output set of a state after `build_failure`: the BFS unions the output
of the failure link into every state it processes (depth-1 states are never
popped as `node_next`, but their failure link is the root, whose output is
empty, so the uniform recursion below assigns them their own output as the
source does).  Fuel decreases along failure links; `outAux_eq` proves the fuel
supplied by `outAC` sufficient. -/
def outAux (pattern : List Nat) : Nat → Label → Finset Int
  | 0, _ => ∅
  | fuel + 1, s =>
    if s = [] then ownOut pattern s
    else ownOut pattern s ∪ outAux pattern fuel (failAC pattern s)

/-- The output set of a state after construction. -/
def outAC (pattern : List Nat) (s : Label) : Finset Int :=
  outAux pattern (s.length + 1) s

/-- Specification of the output set: the end offsets of all segments that are
suffixes of the state's label (`outAC_eq` proves `outAC = outSpec` on states). -/
def outSpec (pattern : List Nat) (s : Label) : Finset Int :=
  (((split_to_words pattern).filter (fun pr => decide (pr.1 <:+ s))).map (·.2)).toFinset

/-- The terminal flag of a state after construction: set by `add_word` for
segment-final nodes, and by `build_failure` for every state whose output set
became non-empty. -/
def terminalAC (pattern : List Nat) (s : Label) : Bool :=
  decide (s ∈ (buildTrie pattern).term) || decide (outAC pattern s ≠ ∅)

/-! ### Basic facts about states and suffixes -/

theorem isNodeB_nil (p : List Nat) : isNodeB p [] = true := rfl

theorem isNodeB_iff (p : List Nat) (s : Label) :
    isNodeB p s = true ↔ s = [] ∨ (s ≠ [] ∧ ∃ w ∈ wordsK p, s <+: w) := by
  simp only [isNodeB, Bool.or_eq_true, List.isEmpty_iff, List.any_eq_true,
    Bool.and_eq_true, Bool.not_eq_true', List.isEmpty_eq_false, List.isPrefixOf_iff_prefix]
  constructor
  · rintro (h | ⟨w, hw, hne, hpre⟩)
    · exact Or.inl h
    · exact Or.inr ⟨hne, w, hw, hpre⟩
  · rintro (h | ⟨hne, w, hw, hpre⟩)
    · exact Or.inl h
    · exact Or.inr ⟨w, hw, hne, hpre⟩

theorem isNodeB_downward {p : List Nat} {s t : Label} (hs : isNodeB p s = true)
    (h : t <+: s) : isNodeB p t = true := by
  rcases (isNodeB_iff p s).1 hs with h0 | ⟨_, w, hw, hpre⟩
  · subst h0
    rw [List.prefix_nil.1 h]
    exact isNodeB_nil p
  · rcases eq_or_ne t [] with rfl | hne
    · exact isNodeB_nil p
    · exact (isNodeB_iff p t).2 (Or.inr ⟨hne, w, hw, h.trans hpre⟩)

theorem suffix_append_singleton {t u : List Nat} (c : Nat) (h : t <:+ u) :
    t ++ [c] <:+ u ++ [c] := by
  obtain ⟨pre, rfl⟩ := h
  exact ⟨pre, (List.append_assoc _ _ _).symm⟩

theorem suffix_snoc_cases {v u : List Nat} {c : Nat} (h : v <:+ u ++ [c]) :
    v = [] ∨ ∃ v', v = v' ++ [c] ∧ v' <:+ u := by
  rcases eq_or_ne v [] with rfl | hne
  · exact Or.inl rfl
  · refine Or.inr ?_
    obtain ⟨pre, hpre⟩ := h
    have hlast : v.getLast hne = c := by
      have h1 : (pre ++ v).getLast (by simp [hne]) = (u ++ [c]).getLast (by simp) := by
        simp only [hpre]
      rwa [List.getLast_append_of_ne_nil hne, List.getLast_append_of_ne_nil (by simp),
        List.getLast_singleton] at h1
    have h3 : v.dropLast ++ [c] = v := by
      rw [← hlast]
      exact List.dropLast_append_getLast hne
    refine ⟨v.dropLast, h3.symm, ⟨pre, ?_⟩⟩
    have h2 : (pre ++ v.dropLast) ++ [c] = u ++ [c] := by
      rw [List.append_assoc, h3, hpre]
    exact List.append_inj_left' h2 rfl

theorem suffix_antisymm {l₁ l₂ : List Nat} (h₁ : l₁ <:+ l₂) (h₂ : l₂ <:+ l₁) : l₁ = l₂ :=
  h₁.eq_of_length_le h₂.length_le

theorem suffix_of_suffix_len_le {v r u : List Nat} (hv : v <:+ u) (hr : r <:+ u)
    (hlen : v.length ≤ r.length) : v <:+ r := by
  have hvp : v.reverse <+: u.reverse := by simpa using hv.reverse
  have hrp : r.reverse <+: u.reverse := by simpa using hr.reverse
  have := List.prefix_of_prefix_length_le hvp hrp (by simpa using hlen)
  simpa using this

/-- First element of `tails` filtered by `P`: either nothing in the list of
suffixes satisfies `P`, or the head is the longest suffix satisfying `P`. -/
theorem tails_filter_head (P : List Nat → Bool) (s : List Nat) :
    ((s.tails.filter P).head? = none ∧ ∀ v, v <:+ s → P v = false) ∨
    (∃ r, (s.tails.filter P).head? = some r ∧ r <:+ s ∧ P r = true ∧
      ∀ v, v <:+ s → P v = true → v <:+ r) := by
  induction s with
  | nil =>
    cases hP : P [] with
    | false =>
      refine Or.inl ⟨by simp [hP], ?_⟩
      intro v hv
      rw [List.suffix_nil.1 hv]; exact hP
    | true =>
      refine Or.inr ⟨[], by simp [hP], List.suffix_refl _, hP, ?_⟩
      intro v hv _
      rw [List.suffix_nil.1 hv]
  | cons a s ih =>
    cases hP : P (a :: s) with
    | true =>
      refine Or.inr ⟨a :: s, ?_, List.suffix_refl _, hP, fun v hv _ => hv⟩
      simp [List.tails_cons, hP]
    | false =>
      have hstep : ((a :: s).tails.filter P).head? = (s.tails.filter P).head? := by
        simp [List.tails_cons, hP]
      rcases ih with ⟨hnone, hall⟩ | ⟨r, hr, hsuf, hPr, hmax⟩
      · refine Or.inl ⟨hstep ▸ hnone, ?_⟩
        intro v hv
        rcases List.suffix_cons_iff.1 hv with rfl | hv'
        · exact hP
        · exact hall v hv'
      · refine Or.inr ⟨r, hstep ▸ hr, hsuf.trans (List.suffix_cons a s), hPr, ?_⟩
        intro v hv hPv
        rcases List.suffix_cons_iff.1 hv with rfl | hv'
        · rw [hPv] at hP; exact absurd hP (by simp)
        · exact hmax v hv' hPv

/-! ### Characterization of `reachSpec`, `failSpec` and `extN` -/

theorem reachSpec_spec (p : List Nat) (u : List Nat) :
    reachSpec p u <:+ u ∧ isNodeB p (reachSpec p u) = true ∧
      ∀ v, v <:+ u → isNodeB p v = true → v <:+ reachSpec p u := by
  rcases tails_filter_head (isNodeB p) u with ⟨_, hall⟩ | ⟨r, hr, hsuf, hPr, hmax⟩
  · have h := hall [] List.nil_suffix
    rw [isNodeB_nil] at h
    exact absurd h (by simp)
  · have hval : reachSpec p u = r := by
      unfold reachSpec
      rw [List.headD_eq_head?_getD, hr, Option.getD_some]
    rw [hval]
    exact ⟨hsuf, hPr, hmax⟩

theorem reachSpec_nil (p : List Nat) : reachSpec p [] = [] := by
  simp [reachSpec, isNodeB]

theorem failSpec_nil (p : List Nat) : failSpec p [] = [] := rfl

theorem failSpec_cons (p : List Nat) (a : Nat) (s : List Nat) :
    failSpec p (a :: s) = reachSpec p s := by
  simp [failSpec, reachSpec, List.tails_cons]

theorem failSpec_spec (p : List Nat) (a : Nat) (s : List Nat) :
    failSpec p (a :: s) <:+ s ∧ isNodeB p (failSpec p (a :: s)) = true ∧
      ∀ v, v <:+ s → isNodeB p v = true → v <:+ failSpec p (a :: s) := by
  rw [failSpec_cons]
  exact reachSpec_spec p s

theorem failSpec_isNodeB (p : List Nat) (s : List Nat) :
    isNodeB p (failSpec p s) = true := by
  cases s with
  | nil => rw [failSpec_nil]; exact isNodeB_nil p
  | cons a s => exact (failSpec_spec p a s).2.1

theorem failSpec_length_lt {p : List Nat} {s : List Nat} (h : s ≠ []) :
    (failSpec p s).length < s.length := by
  cases s with
  | nil => exact absurd rfl h
  | cons a s =>
    have := (failSpec_spec p a s).1.length_le
    simpa using Nat.lt_succ_of_le this

theorem failSpec_suffix {p : List Nat} {s : List Nat} (h : s ≠ []) :
    failSpec p s <:+ s := by
  cases s with
  | nil => exact absurd rfl h
  | cons a s => exact (failSpec_spec p a s).1.trans (List.suffix_cons a s)

theorem extN_spec (p : List Nat) (s : Label) (c : Nat) :
    (extN p s c = [] ∧
      ∀ v, v <:+ s → isNodeB p v = true → isNodeB p (v ++ [c]) = false) ∨
    (∃ t, t <:+ s ∧ isNodeB p t = true ∧ isNodeB p (t ++ [c]) = true ∧
      extN p s c = t ++ [c] ∧
      ∀ v, v <:+ s → isNodeB p v = true → isNodeB p (v ++ [c]) = true → v <:+ t) := by
  rcases tails_filter_head (fun t => isNodeB p t && isNodeB p (t ++ [c])) s with
    ⟨hnone, hall⟩ | ⟨t, ht, hsuf, hP, hmax⟩
  · left
    constructor
    · unfold extN
      rw [hnone]
    · intro v hv hNv
      have h := hall v hv
      simpa [hNv] using h
  · right
    rw [Bool.and_eq_true] at hP
    refine ⟨t, hsuf, hP.1, hP.2, ?_, ?_⟩
    · unfold extN
      rw [ht]
    · intro v hv h1 h2
      exact hmax v hv (by simp [h1, h2])

theorem isNodeB_extN (p : List Nat) (s : Label) (c : Nat) :
    isNodeB p (extN p s c) = true := by
  rcases extN_spec p s c with ⟨hz, _⟩ | ⟨t, _, _, htcN, hval, _⟩
  · rw [hz]; exact isNodeB_nil p
  · rw [hval]; exact htcN

theorem extN_suffix_snoc (p : List Nat) (s : Label) (c : Nat) :
    extN p s c <:+ s ++ [c] := by
  rcases extN_spec p s c with ⟨hz, _⟩ | ⟨t, hts, _, _, hval, _⟩
  · rw [hz]; exact List.nil_suffix
  · rw [hval]; exact suffix_append_singleton c hts

/-- The central step lemma: following the completed transition on `c` from the
state reached by `u` yields the state reached by `u ++ [c]`. -/
theorem reachSpec_snoc (p : List Nat) (u : List Nat) (c : Nat) :
    reachSpec p (u ++ [c]) = extN p (reachSpec p u) c := by
  obtain ⟨hrs, hrN, hrmax⟩ := reachSpec_spec p u
  obtain ⟨hs', hN', hmax'⟩ := reachSpec_spec p (u ++ [c])
  rcases extN_spec p (reachSpec p u) c with ⟨hz, hno⟩ | ⟨t, hts, htN, htcN, hval, htmax⟩
  · rw [hz]
    rcases suffix_snoc_cases hs' with h0 | ⟨v', heq, hv'⟩
    · exact h0
    · exfalso
      have hv'N : isNodeB p v' = true :=
        isNodeB_downward (heq ▸ hN') (List.prefix_append _ _)
      have hmem : v' <:+ reachSpec p u := hrmax v' hv' hv'N
      have := hno v' hmem hv'N
      rw [← heq] at this
      rw [this] at hN'
      exact absurd hN' (by simp)
  · rw [hval]
    apply suffix_antisymm
    · rcases suffix_snoc_cases hs' with h0 | ⟨v', heq, hv'⟩
      · rw [h0]; exact List.nil_suffix
      · rw [heq]
        apply suffix_append_singleton
        have hv'N : isNodeB p v' = true :=
          isNodeB_downward (heq ▸ hN') (List.prefix_append _ _)
        have hv'cN : isNodeB p (v' ++ [c]) = true := heq ▸ hN'
        exact htmax v' (hrmax v' hv' hv'N) hv'N hv'cN
    · exact hmax' _ (suffix_append_singleton c (hts.trans hrs)) htcN

/-- Peeling one failure step off a completed-transition search: if `t` itself
has no trie edge on `c`, the search continues from its failure link. -/
theorem extN_peel {p : List Nat} {t : Label} {c : Nat} (hne : t ≠ [])
    (hN : isNodeB p t = true) (hedge : isNodeB p (t ++ [c]) = false) :
    extN p t c = extN p (failSpec p t) c := by
  obtain ⟨a, t', rfl⟩ : ∃ a t', t = a :: t' := by
    cases t with
    | nil => exact absurd rfl hne
    | cons a t' => exact ⟨a, t', rfl⟩
  obtain ⟨hfs, hfN, hfmax⟩ := failSpec_spec p a t'
  have hsub : ∀ v, v <:+ failSpec p (a :: t') → v <:+ a :: t' := fun v hv =>
    (hv.trans hfs).trans (List.suffix_cons a t')
  have htrans : ∀ v, v <:+ a :: t' → isNodeB p v = true →
      isNodeB p (v ++ [c]) = true → v <:+ failSpec p (a :: t') := by
    intro v hv hvN hvcN
    have hvne : v ≠ a :: t' := by
      intro h
      rw [h] at hvcN
      rw [hvcN] at hedge
      exact absurd hedge (by simp)
    rcases List.suffix_cons_iff.1 hv with h | h
    · exact absurd h hvne
    · exact hfmax v h hvN
  rcases extN_spec p (a :: t') c with ⟨hz, hno⟩ | ⟨r, hrs, hrN, hrcN, hval, hrmax⟩
  · rcases extN_spec p (failSpec p (a :: t')) c with ⟨hz', _⟩ | ⟨r', hrs', hrN', hrcN', hval', _⟩
    · rw [hz, hz']
    · exact absurd hrcN' (by rw [hno r' (hsub r' hrs') hrN']; simp)
  · rcases extN_spec p (failSpec p (a :: t')) c with ⟨hz', hno'⟩ | ⟨r', hrs', hrN', hrcN', hval', hrmax'⟩
    · exact absurd hrcN (by rw [hno' r (htrans r hrs hrN hrcN) hrN]; simp)
    · rw [hval, hval']
      have h1 : r <:+ r' := hrmax' r (htrans r hrs hrN hrcN) hrN hrcN
      have h2 : r' <:+ r := hrmax r' (hsub r' hrs') hrN' hrcN'
      rw [suffix_antisymm h1 h2]

/-- Correctness of the failure walk: with enough fuel, and with a failure
function that agrees with `failSpec` on the suffixes of the start state, the
walk computes the completed transition. -/
theorem gstarAux_eq (p : List Nat) :
    ∀ fuel t c, isNodeB p t = true → t.length + 1 ≤ fuel →
    ∀ fO : Label → Label,
    (∀ v, v <:+ t → isNodeB p v = true → fO v = failSpec p v) →
    gstarAux (gotoN p) fO fuel t c = extN p t c := by
  intro fuel
  induction fuel with
  | zero => intro t c _ h; omega
  | succ f ih =>
    intro t c htN hfuel fO hO
    show (match gotoN p t c with
      | some r => r
      | none => gstarAux (gotoN p) fO f (fO t) c) = extN p t c
    rcases hg : gotoN p t c with _ | r
    · have hedge : isNodeB p (t ++ [c]) = false := by
        by_contra h
        have h' : isNodeB p (t ++ [c]) = true := by
          cases h2 : isNodeB p (t ++ [c]) with
          | false => exact absurd h2 h
          | true => rfl
        rw [gotoN, h'] at hg
        simp at hg
      have hne : t ≠ [] := by
        intro h
        rw [gotoN, hedge] at hg
        rw [if_neg (by simp)] at hg
        rw [if_pos h] at hg
        simp at hg
      have hOt : fO t = failSpec p t := hO t (List.suffix_refl t) htN
      rw [hOt]
      have hflen : (failSpec p t).length < t.length := failSpec_length_lt hne
      have hres := ih (failSpec p t) c (failSpec_isNodeB p t) (by omega) fO
        (fun v hv hvN => hO v (hv.trans (failSpec_suffix hne)) hvN)
      rw [hres]
      exact (extN_peel hne htN hedge).symm
    · rw [gotoN] at hg
      by_cases hedge : isNodeB p (t ++ [c]) = true
      · rw [if_pos hedge] at hg
        have hrval : r = t ++ [c] := by injection hg with h; exact h.symm
        subst hrval
        rcases extN_spec p t c with ⟨_, hno⟩ | ⟨r', hrs', hrN', hrcN', hval', hrmax'⟩
        · exact absurd hedge (by rw [hno t (List.suffix_refl t) htN]; simp)
        · rw [hval']
          have h2 : t <:+ r' := hrmax' t (List.suffix_refl t) htN hedge
          rw [suffix_antisymm h2 hrs']
      · rw [if_neg hedge] at hg
        rcases eq_or_ne t [] with rfl | hne
        · rw [if_pos rfl] at hg
          have hrval : r = [] := by injection hg with h; exact h.symm
          subst hrval
          have hedge' : isNodeB p ([] ++ [c]) = false := by
            cases h2 : isNodeB p ([] ++ [c]) with
            | false => rfl
            | true => exact absurd h2 hedge
          rcases extN_spec p [] c with ⟨hz, _⟩ | ⟨r', hrs', _, hrcN', hval', _⟩
          · rw [hz]
          · rw [List.suffix_nil.1 hrs'] at hrcN'
            rw [hrcN'] at hedge'
            simp at hedge'
        · rw [if_neg hne] at hg
          simp at hg

theorem getLastD_of_ne_nil {l : List Nat} (h : l ≠ []) : l.getLastD 0 = l.getLast h := by
  rw [List.getLastD_eq_getLast?, List.getLast?_eq_getLast l h, Option.getD_some]

theorem failSpec_snoc (p : List Nat) (w : List Nat) (c : Nat) (hw : w ≠ []) :
    failSpec p (w ++ [c]) = extN p (failSpec p w) c := by
  obtain ⟨a, w', rfl⟩ : ∃ a w', w = a :: w' := by
    cases w with
    | nil => exact absurd rfl hw
    | cons a w' => exact ⟨a, w', rfl⟩
  rw [show (a :: w') ++ [c] = a :: (w' ++ [c]) from rfl, failSpec_cons, failSpec_cons,
    reachSpec_snoc]

/-- Fuel adequacy for `build_failure`: the fueled translation computes the
longest-proper-suffix failure link. -/
theorem failAux_eq (p : List Nat) :
    ∀ fuel s, s.length + 1 ≤ fuel → failAux p fuel s = failSpec p s := by
  intro fuel
  induction fuel with
  | zero => intro s h; omega
  | succ f ih =>
    intro s hfuel
    show (if s.length ≤ 1 then [] else gstarAux (gotoN p) (failAux p f) f
      (failAux p f s.dropLast) (s.getLastD 0)) = failSpec p s
    by_cases hlen : s.length ≤ 1
    · rw [if_pos hlen]
      cases s with
      | nil => exact (failSpec_nil p).symm
      | cons a s' =>
        cases s' with
        | nil => rw [failSpec_cons, reachSpec_nil]
        | cons b s'' => simp at hlen
    · rw [if_neg hlen]
      have hlen2 : 2 ≤ s.length := by omega
      have hne : s ≠ [] := by
        intro h
        subst h
        simp at hlen2
      have hdlen : s.dropLast.length = s.length - 1 := List.length_dropLast s
      have hdne : s.dropLast ≠ [] := by
        intro h
        rw [h] at hdlen
        simp at hdlen
        omega
      have h1 : failAux p f s.dropLast = failSpec p s.dropLast := ih _ (by omega)
      rw [h1]
      have hflt : (failSpec p s.dropLast).length < s.dropLast.length :=
        failSpec_length_lt hdne
      have key := gstarAux_eq p f (failSpec p s.dropLast) (s.getLastD 0)
        (failSpec_isNodeB _ _) (by omega) (failAux p f)
        (fun v hv hvN => ih v (by
          have := hv.length_le
          omega))
      rw [key]
      conv_rhs => rw [← List.dropLast_append_getLast hne]
      rw [failSpec_snoc p _ _ hdne, getLastD_of_ne_nil hne]

theorem failAC_eq (p : List Nat) (s : Label) : failAC p s = failSpec p s :=
  failAux_eq p (s.length + 1) s (Nat.le_refl _)

/-- The transition table produced by `do_bfs` is the completed transition. -/
theorem deltaAC_eq (p : List Nat) (s : Label) (c : Nat) (hs : isNodeB p s = true) :
    deltaAC p s c = extN p s c :=
  gstarAux_eq p (s.length + 1) s c hs (Nat.le_refl _) (failAC p)
    (fun v _ _ => failAC_eq p v)

/-- Totality of the completed transition function: it maps states to states. -/
theorem deltaAC_isNodeB (p : List Nat) (s : Label) (c : Nat)
    (hs : isNodeB p s = true) : isNodeB p (deltaAC p s c) = true := by
  rw [deltaAC_eq p s c hs]
  exact isNodeB_extN p s c

/-! ### The segmenter: maximal non-wildcard runs -/

/-- Wellformedness of one `(segment, end_offset)` pair relative to the pattern:
the segment is a non-empty wildcard-free run of the pattern ending at the
0-based offset `e`, maximal on both sides. -/
def SegEntry (p : List Nat) (pr : List Nat × Int) : Prop :=
  ∃ e : Nat, pr.2 = (e : Int) ∧ pr.1 ≠ [] ∧ (∀ ch ∈ pr.1, ch ≠ wildcard) ∧
    pr.1.length ≤ e + 1 ∧ e < p.length ∧
    (∀ i < pr.1.length, p.getD (e + 1 - pr.1.length + i) 0 = pr.1.getD i 0) ∧
    (e + 1 < p.length → p.getD (e + 1) 0 = wildcard) ∧
    (pr.1.length ≤ e → p.getD (e - pr.1.length) 0 = wildcard)

/-- The pattern position `j` lies inside the run described by `pr`. -/
def SegCovers (pr : List Nat × Int) (j : Nat) : Prop :=
  ∃ e : Nat, pr.2 = (e : Int) ∧ ∃ i < pr.1.length, j = e + 1 - pr.1.length + i

theorem split_go_acc (rest : List Nat) :
    ∀ pos word acc, split_go pos word acc rest = acc ++ split_go pos word [] rest := by
  induction rest with
  | nil =>
    intro pos word acc
    show (if word = [] then acc else acc ++ [(word, pos)]) =
      acc ++ (if word = [] then [] else [] ++ [(word, pos)])
    by_cases h : word = [] <;> simp [h]
  | cons c cs ih =>
    intro pos word acc
    show (if c = wildcard then
        if word = [] then split_go (pos + 1) [] acc cs
        else split_go (pos + 1) [] (acc ++ [(word, pos)]) cs
      else split_go (pos + 1) (word ++ [c]) acc cs) =
      acc ++ (if c = wildcard then
        if word = [] then split_go (pos + 1) [] [] cs
        else split_go (pos + 1) [] ([] ++ [(word, pos)]) cs
      else split_go (pos + 1) (word ++ [c]) [] cs)
    by_cases hc : c = wildcard
    · by_cases hw : word = []
      · simp only [if_pos hc, if_pos hw]
        exact ih (pos + 1) [] acc
      · rw [if_pos hc, if_pos hc, if_neg hw, if_neg hw, ih (pos + 1) [] (acc ++ [(word, pos)]),
          ih (pos + 1) [] ([] ++ [(word, pos)])]
        simp
    · rw [if_neg hc, if_neg hc, ih (pos + 1) (word ++ [c]) acc, ih (pos + 1) (word ++ [c]) []]

/-- Generalized invariant of the segmenter scan, by induction over the
remaining text `p.drop t`: `word` is the currently accumulated run (the
maximal non-wildcard run ending just before position `t`), and the scan emits
exactly the maximal runs of the rest of the pattern, in increasing order of
end offset, covering every non-wildcard position from the start of `word`. -/
theorem split_go_bundle (p : List Nat) :
    ∀ k t word, p.length ≤ t + k → t ≤ p.length → word.length ≤ t →
    (∀ ch ∈ word, ch ≠ wildcard) →
    (∀ i, i < word.length → p.getD (t - word.length + i) 0 = word.getD i 0) →
    (word.length < t → p.getD (t - word.length - 1) 0 = wildcard) →
    (∀ pr ∈ split_go ((t : Int) - 1) word [] (p.drop t),
        SegEntry p pr ∧ (t : Int) - 1 ≤ pr.2) ∧
    (split_go ((t : Int) - 1) word [] (p.drop t)).Pairwise (fun a b => a.2 < b.2) ∧
    (∀ j, t - word.length ≤ j → j < p.length → p.getD j 0 ≠ wildcard →
      ∃ pr ∈ split_go ((t : Int) - 1) word [] (p.drop t), SegCovers pr j) := by
  intro k
  induction k with
  | zero =>
    intro t word hk ht hwlen hwchars hwsl hwmax
    have hteq : t = p.length := by omega
    subst hteq
    rw [List.drop_length]
    by_cases hw : word = []
    · subst hw
      refine ⟨?_, ?_, ?_⟩
      · intro pr hpr
        rw [split_go, if_pos rfl] at hpr
        simp at hpr
      · rw [split_go, if_pos rfl]
        exact List.Pairwise.nil
      · intro j hj1 hj2 _
        simp at hj1
        omega
    · rw [split_go, if_neg hw]
      have hm1 : 1 ≤ p.length := by
        have : 1 ≤ word.length := by
          cases word with
          | nil => exact absurd rfl hw
          | cons a w => simp
        omega
      refine ⟨?_, ?_, ?_⟩
      · intro pr hpr
        simp only [List.nil_append, List.mem_singleton] at hpr
        subst hpr
        constructor
        · dsimp only [SegEntry]
          refine ⟨p.length - 1, by omega, hw, hwchars, by omega, by omega, ?_, ?_, ?_⟩
          · intro i hi
            have : p.length - 1 + 1 - word.length + i = p.length - word.length + i := by
              omega
            rw [this]
            exact hwsl i hi
          · intro h
            omega
          · intro h
            have : p.length - 1 - word.length = p.length - word.length - 1 := by omega
            rw [this]
            exact hwmax (by omega)
        · simp
      · simp
      · intro j hj1 hj2 _
        refine ⟨(word, (p.length : Int) - 1), by simp, ?_⟩
        dsimp only [SegCovers]
        exact ⟨p.length - 1, by omega, j - (p.length - word.length), by omega, by omega⟩
  | succ k ih =>
    intro t word hk ht hwlen hwchars hwsl hwmax
    by_cases htlt : t < p.length
    · have hdrop : p.drop t = p.getD t 0 :: p.drop (t + 1) := by
        rw [List.drop_eq_getElem_cons htlt, List.getD_eq_getElem p 0 htlt]
      rw [hdrop]
      have hcast : ((t : Int) - 1) + 1 = ((t + 1 : Nat) : Int) - 1 := by push_cast; ring
      by_cases hc : p.getD t 0 = wildcard
      · by_cases hw : word = []
        · subst hw
          rw [split_go, if_pos hc, if_pos rfl, hcast]
          have hrec := ih (t + 1) [] (by omega) (by omega) (by simp)
            (by intro ch h; simp at h) (by intro i hi; simp at hi)
            (by intro _; simpa using hc)
          refine ⟨?_, hrec.2.1, ?_⟩
          · intro pr hpr
            have h := hrec.1 pr hpr
            exact ⟨h.1, by have := h.2; omega⟩
          · intro j hj1 hj2 hj3
            simp only [List.length_nil] at hj1
            rcases Nat.lt_or_ge t j with h | h
            · exact hrec.2.2 j (by simp only [List.length_nil]; omega) hj2 hj3
            · have : j = t := by omega
              subst this
              exact absurd hc hj3
        · rw [split_go, if_pos hc, if_neg hw, split_go_acc, hcast, List.nil_append]
          have hrec := ih (t + 1) [] (by omega) (by omega) (by simp)
            (by intro ch h; simp at h) (by intro i hi; simp at hi)
            (by intro _; simpa using hc)
          have hhead : SegEntry p (word, (t : Int) - 1) := by
            dsimp only [SegEntry]
            have ht1 : 1 ≤ t := by
              have : 1 ≤ word.length := by
                cases word with
                | nil => exact absurd rfl hw
                | cons a w => simp
              omega
            refine ⟨t - 1, by omega, hw, hwchars, by omega, by omega, ?_, ?_, ?_⟩
            · intro i hi
              have : t - 1 + 1 - word.length + i = t - word.length + i := by omega
              rw [this]
              exact hwsl i hi
            · intro _
              have : t - 1 + 1 = t := by omega
              rw [this]
              exact hc
            · intro h
              have : t - 1 - word.length = t - word.length - 1 := by omega
              rw [this]
              exact hwmax (by omega)
          refine ⟨?_, ?_, ?_⟩
          · intro pr hpr
            rw [List.singleton_append] at hpr
            rcases List.mem_cons.1 hpr with h | h
            · subst h
              exact ⟨hhead, by simp⟩
            · have h2 := hrec.1 pr h
              exact ⟨h2.1, by have := h2.2; omega⟩
          · rw [List.singleton_append, List.pairwise_cons]
            refine ⟨?_, hrec.2.1⟩
            intro b hb
            have := (hrec.1 b hb).2
            show (t : Int) - 1 < b.2
            omega
          · intro j hj1 hj2 hj3
            rcases Nat.lt_or_ge t j with h | h
            · obtain ⟨pr, hpr, hcov⟩ := hrec.2.2 j (by simp only [List.length_nil]; omega) hj2 hj3
              refine ⟨pr, ?_, hcov⟩
              rw [List.singleton_append]
              exact List.mem_cons_of_mem _ hpr
            · rcases Nat.lt_or_ge j t with h' | h'
              · refine ⟨(word, (t : Int) - 1), by simp, ?_⟩
                dsimp only [SegCovers]
                exact ⟨t - 1, by omega, j - (t - word.length), by omega, by omega⟩
              · have : j = t := by omega
                subst this
                exact absurd hc hj3
      · rw [split_go, if_neg hc, hcast]
        have hlast : (word ++ [p.getD t 0]).getD word.length 0 = p.getD t 0 := by
          rw [List.getD_append_right _ _ _ _ (Nat.le_refl _)]
          simp
        have hrec := ih (t + 1) (word ++ [p.getD t 0]) (by omega) (by omega)
          (by simp; omega)
          (by
            intro ch hch
            rcases List.mem_append.1 hch with h | h
            · exact hwchars ch h
            · rw [List.mem_singleton.1 h]; exact hc)
          (by
            intro i hi
            simp only [List.length_append, List.length_singleton] at hi
            have hidx : t + 1 - (word ++ [p.getD t 0]).length + i = t - word.length + i := by
              simp only [List.length_append, List.length_singleton]
              omega
            rw [hidx]
            rcases Nat.lt_or_ge i word.length with h | h
            · rw [List.getD_append _ _ _ _ h]
              exact hwsl i h
            · have : i = word.length := by omega
              subst this
              rw [hlast]
              have : t - word.length + word.length = t := by omega
              rw [this])
          (by
            intro h
            simp only [List.length_append, List.length_singleton] at h
            have hidx : t + 1 - (word ++ [p.getD t 0]).length - 1 = t - word.length - 1 := by
              simp only [List.length_append, List.length_singleton]
              omega
            rw [hidx]
            exact hwmax (by omega))
        refine ⟨?_, hrec.2.1, ?_⟩
        · intro pr hpr
          have h := hrec.1 pr hpr
          exact ⟨h.1, by have := h.2; omega⟩
        · intro j hj1 hj2 hj3
          refine hrec.2.2 j ?_ hj2 hj3
          simp only [List.length_append, List.length_singleton]
          omega
    · have hteq : t = p.length := by omega
      subst hteq
      exact (by
        have := ih p.length word (by omega) (by omega) hwlen hwchars hwsl hwmax
        exact this)

/-- The bundle instantiated at the start of the scan: every emitted pair is a
maximal run, the end offsets are strictly increasing, and every non-wildcard
position of the pattern is covered by some emitted run. -/
theorem split_bundle (p : List Nat) :
    (∀ pr ∈ split_to_words p, SegEntry p pr) ∧
    (split_to_words p).Pairwise (fun a b => a.2 < b.2) ∧
    (∀ j, j < p.length → p.getD j 0 ≠ wildcard →
      ∃ pr ∈ split_to_words p, SegCovers pr j) := by
  have h := split_go_bundle p p.length 0 [] (by omega) (by omega) (by simp)
    (by intro ch hch; simp at hch) (by intro i hi; simp at hi) (by intro h; omega)
  rw [show ((0 : Nat) : Int) - 1 = -1 by norm_num, List.drop_zero] at h
  have heq : split_go (-1) [] [] p = split_to_words p := rfl
  rw [heq] at h
  refine ⟨fun pr hpr => (h.1 pr hpr).1, h.2.1, fun j hj hjw => ?_⟩
  exact h.2.2 j (by simp) hj hjw

theorem seg_entry (p : List Nat) {pr : List Nat × Int} (hpr : pr ∈ split_to_words p) :
    SegEntry p pr :=
  (split_bundle p).1 pr hpr

theorem seg_word_ne_nil (p : List Nat) {pr : List Nat × Int}
    (hpr : pr ∈ split_to_words p) : pr.1 ≠ [] := by
  obtain ⟨e, _, hne, _⟩ := seg_entry p hpr
  exact hne

theorem seg_pairwise (p : List Nat) :
    (split_to_words p).Pairwise (fun a b => a.2 < b.2) :=
  (split_bundle p).2.1

/-- Distinct segments of the same pattern have distinct end offsets, hence an
entry is determined by its end offset. -/
theorem seg_ends_inj (p : List Nat) {pr pr' : List Nat × Int}
    (h : pr ∈ split_to_words p) (h' : pr' ∈ split_to_words p) (he : pr.2 = pr'.2) :
    pr = pr' := by
  by_contra hne
  have hp : (split_to_words p).Pairwise (fun a b => a.2 ≠ b.2) :=
    (seg_pairwise p).imp (by intro a b hab; omega)
  have hsym : Symmetric (fun a b : List Nat × Int => a.2 ≠ b.2) := by
    intro a b hab
    omega
  exact (hp.forall hsym h h' hne) he

/-! ### Suffix tests by indexed characters -/

theorem suffix_iff_getD {w v : List Nat} (hlen : w.length ≤ v.length) :
    w <:+ v ↔ ∀ i, i < w.length → v.getD (v.length - w.length + i) 0 = w.getD i 0 := by
  constructor
  · rintro ⟨pre, rfl⟩
    intro i hi
    have hpre : pre.length = (pre ++ w).length - w.length := by simp
    rw [← hpre]
    simp only [List.getD_eq_getElem?_getD]
    rw [List.getElem?_append_right (show pre.length ≤ pre.length + i by omega)]
    have : pre.length + i - pre.length = i := by omega
    rw [this]
  · intro hall
    have hw : w = v.drop (v.length - w.length) := by
      apply List.ext_getElem
      · simp
        omega
      · intro i h1 h2
        have h3 : v.length - w.length + i < v.length := by omega
        rw [List.getElem_drop]
        have := hall i h1
        simp only [List.getD_eq_getElem?_getD, List.getElem?_eq_getElem h3,
          List.getElem?_eq_getElem h1, Option.getD_some] at this
        exact this.symm
    rw [hw]
    exact List.drop_suffix _ _

theorem getD_take_lt {u : List Nat} {q j : Nat} (h : j < q) :
    (u.take q).getD j 0 = u.getD j 0 := by
  simp only [List.getD_eq_getElem?_getD, List.getElem?_take_of_lt h]

theorem suffix_take_iff_getD {w u : List Nat} {q : Nat} (hq : q ≤ u.length)
    (hlen : w.length ≤ q) :
    w <:+ u.take q ↔ ∀ i, i < w.length → u.getD (q - w.length + i) 0 = w.getD i 0 := by
  have hlq : (u.take q).length = q := by simp; omega
  rw [suffix_iff_getD (by omega), hlq]
  constructor
  · intro hall i hi
    rw [← getD_take_lt (show q - w.length + i < q by omega)]
    exact hall i hi
  · intro hall i hi
    rw [getD_take_lt (show q - w.length + i < q by omega)]
    exact hall i hi

/-- A pattern consisting entirely of wildcards (in particular the empty
pattern) yields no segments. -/
theorem split_eq_nil_of_all_wildcard (p : List Nat) (h : ∀ ch ∈ p, ch = wildcard) :
    split_to_words p = [] := by
  rw [List.eq_nil_iff_forall_not_mem]
  intro pr hpr
  obtain ⟨e, he2, hne, hchars, hlen, helt, hsl, _, _⟩ := seg_entry p hpr
  have h1 : 1 ≤ pr.1.length := by
    cases hh : pr.1 with
    | nil => exact absurd hh hne
    | cons a w => simp [hh]
  have hs := hsl (pr.1.length - 1) (by omega)
  have hidx : e + 1 - pr.1.length + (pr.1.length - 1) = e := by omega
  rw [hidx] at hs
  have hmem : p.getD e 0 ∈ p := by
    rw [List.getD_eq_getElem p 0 helt]
    exact List.getElem_mem helt
  have hwc := h _ hmem
  rw [hs] at hwc
  have hmem2 : pr.1.getD (pr.1.length - 1) 0 ∈ pr.1 := by
    rw [List.getD_eq_getElem pr.1 0 (by omega)]
    exact List.getElem_mem (by omega)
  exact hchars _ hmem2 hwc

/-- Conversely, if there are no segments every pattern position is a wildcard. -/
theorem all_wildcard_of_split_nil (p : List Nat) (h : split_to_words p = []) :
    ∀ j, j < p.length → p.getD j 0 = wildcard := by
  intro j hj
  by_contra hne
  obtain ⟨pr, hpr, _⟩ := (split_bundle p).2.2 j hj hne
  rw [h] at hpr
  simp at hpr

/-- A pattern with at least one segment has positive length. -/
theorem length_pos_of_split_ne_nil (p : List Nat) (h : split_to_words p ≠ []) :
    1 ≤ p.length := by
  rcases hsp : split_to_words p with _ | ⟨pr, rest⟩
  · exact absurd hsp h
  · have hmem : pr ∈ split_to_words p := by rw [hsp]; exact List.mem_cons_self pr rest
    obtain ⟨e, _, _, _, _, helt, _⟩ := seg_entry p hmem
    omega

/-! ### Characterization of the built trie -/

theorem lookupL_append (L₁ L₂ : LinkTable) (s : Label) (c : Nat) :
    lookupL (L₁ ++ L₂) s c = (lookupL L₁ s c).or (lookupL L₂ s c) := by
  unfold lookupL
  rw [List.find?_append]
  cases h : L₁.find? (fun pr => decide (pr.1 = (s, c))) with
  | none => simp
  | some x => simp

theorem lookupL_eq_some_mem {L : LinkTable} {s : Label} {c : Nat} {v : Label}
    (h : lookupL L s c = some v) : ((s, c), v) ∈ L := by
  unfold lookupL at h
  cases hf : L.find? (fun pr => decide (pr.1 = (s, c))) with
  | none => rw [hf] at h; simp at h
  | some x =>
    rw [hf] at h
    simp only [Option.map_some', Option.some.injEq] at h
    have hx := List.mem_of_find?_eq_some hf
    have hpx' := (List.find?_eq_some.1 hf).1
    have hpx : x.1 = (s, c) := of_decide_eq_true hpx'
    have : x = ((s, c), v) := by
      cases x with
      | mk k w =>
        simp only at hpx h
        rw [hpx, h]
    rwa [this] at hx

theorem lookupL_isSome_iff {L : LinkTable} {s : Label} {c : Nat} :
    (lookupL L s c).isSome ↔ ∃ v, ((s, c), v) ∈ L := by
  unfold lookupL
  rw [Option.isSome_map']
  rw [List.find?_isSome]
  constructor
  · rintro ⟨x, hx, hpx⟩
    have h1 : x.1 = (s, c) := of_decide_eq_true hpx
    refine ⟨x.2, ?_⟩
    have : x = ((s, c), x.2) := by
      cases x with
      | mk k w => simp only at h1 ⊢; rw [h1]
    rwa [this] at hx
  · rintro ⟨v, hv⟩
    exact ⟨((s, c), v), hv, by simp⟩

theorem lookupL_singleton_eq (s : Label) (c : Nat) (v : Label) :
    lookupL [((s, c), v)] s c = some v := by
  simp [lookupL, List.find?_cons]

theorem lookupL_singleton_ne {s : Label} {c : Nat} {v : Label} {a : Label} {b : Nat}
    (h : (a, b) ≠ (s, c)) : lookupL [((s, c), v)] a b = none := by
  have h2 : ¬((s, c) = (a, b)) := fun hh => h hh.symm
  simp [lookupL, List.find?_cons, h2]

/-- Effect of the `add_word` walk: it reaches the node labelled `s ++ cs`,
leaves terminal flags and outputs alone, and extends nodes and edges by exactly
the missing prefixes of the inserted path. -/
theorem add_word_go_spec : ∀ (cs : List Nat) (t : TrieData) (s : Label),
    (∀ pr ∈ t.links, pr.2 = pr.1.1 ++ [pr.1.2]) →
    (∀ a b, (lookupL t.links a b).isSome → a ++ [b] ∈ t.nodes) →
    (add_word_go t s cs).2 = s ++ cs ∧
    (add_word_go t s cs).1.term = t.term ∧
    (add_word_go t s cs).1.outPairs = t.outPairs ∧
    (∀ pr ∈ (add_word_go t s cs).1.links, pr.2 = pr.1.1 ++ [pr.1.2]) ∧
    (∀ a b, (lookupL (add_word_go t s cs).1.links a b).isSome →
      a ++ [b] ∈ (add_word_go t s cs).1.nodes) ∧
    (∀ a b, (lookupL (add_word_go t s cs).1.links a b).isSome ↔
      ((lookupL t.links a b).isSome ∨ ∃ w1, w1 ++ [b] <+: cs ∧ a = s ++ w1)) ∧
    (∀ x, x ∈ (add_word_go t s cs).1.nodes ↔
      (x ∈ t.nodes ∨ ∃ w1, w1 ≠ [] ∧ w1 <+: cs ∧ x = s ++ w1)) := by
  intro cs
  induction cs with
  | nil =>
    intro t s hA hT
    refine ⟨by simp [add_word_go], rfl, rfl, hA, hT, ?_, ?_⟩
    · intro a b
      constructor
      · intro h
        exact Or.inl h
      · rintro (h | ⟨w1, hw1, _⟩)
        · exact h
        · rw [List.prefix_nil] at hw1
          simp at hw1
    · intro x
      constructor
      · intro h
        exact Or.inl h
      · rintro (h | ⟨w1, hne, hw1, _⟩)
        · exact h
        · rw [List.prefix_nil] at hw1
          exact absurd hw1 hne
  | cons c cs' ih =>
    intro t s hA hT
    rcases hlk : lookupL t.links s c with _ | v
    · have hgo : add_word_go t s (c :: cs') = add_word_go
          { t with nodes := t.nodes ++ [s ++ [c]], links := t.links ++ [((s, c), s ++ [c])] }
          (s ++ [c]) cs' := by
        simp only [add_word_go, hlk]
      rw [hgo]
      have hA' : ∀ pr ∈ (t.links ++ [((s, c), s ++ [c])] : LinkTable),
          pr.2 = pr.1.1 ++ [pr.1.2] := by
        intro pr hpr
        rcases List.mem_append.1 hpr with h | h
        · exact hA pr h
        · rw [List.mem_singleton.1 h]
      have hlk' : ∀ a' b', lookupL (t.links ++ [((s, c), s ++ [c])]) a' b' =
          if (a', b') = (s, c) then some (s ++ [c]) else lookupL t.links a' b' := by
        intro a' b'
        rw [lookupL_append]
        by_cases h : (a', b') = (s, c)
        · rw [if_pos h]
          have h1 : a' = s := congrArg Prod.fst h
          have h2 : b' = c := congrArg Prod.snd h
          subst h1; subst h2
          rw [hlk, lookupL_singleton_eq]
          rfl
        · rw [if_neg h, lookupL_singleton_ne h, Option.or_none]
      have hT' : ∀ a' b',
          (lookupL (t.links ++ [((s, c), s ++ [c])]) a' b').isSome →
          a' ++ [b'] ∈ t.nodes ++ [s ++ [c]] := by
        intro a' b' h
        rw [hlk' a' b'] at h
        by_cases hab : (a', b') = (s, c)
        · have h1 : a' = s := congrArg Prod.fst hab
          have h2 : b' = c := congrArg Prod.snd hab
          subst h1; subst h2
          simp
        · rw [if_neg hab] at h
          exact List.mem_append_left _ (hT a' b' h)
      obtain ⟨g1, g2, g3, g4, g5, g6, g7⟩ := ih
        { t with nodes := t.nodes ++ [s ++ [c]], links := t.links ++ [((s, c), s ++ [c])] }
        (s ++ [c]) hA' hT'
      refine ⟨by rw [g1]; simp, g2, g3, g4, g5, ?_, ?_⟩
      · intro a' b'
        rw [g6 a' b']
        show (lookupL (t.links ++ [((s, c), s ++ [c])]) a' b').isSome = true ∨ _ ↔ _
        rw [hlk' a' b']
        constructor
        · rintro (h | ⟨w1, hw1, rfl⟩)
          · by_cases hab : (a', b') = (s, c)
            · have h1 : a' = s := congrArg Prod.fst hab
              have h2 : b' = c := congrArg Prod.snd hab
              subst h1; subst h2
              exact Or.inr ⟨[], by simp, by simp⟩
            · rw [if_neg hab] at h
              exact Or.inl h
          · exact Or.inr ⟨c :: w1, by exact List.cons_prefix_cons.2 ⟨rfl, hw1⟩, by simp⟩
        · rintro (h | ⟨w1, hw1, rfl⟩)
          · by_cases hab : (a', b') = (s, c)
            · rw [if_pos hab]
              exact Or.inl rfl
            · rw [if_neg hab]
              exact Or.inl h
          · cases w1 with
            | nil =>
              left
              have hb : b' = c := (List.cons_prefix_cons.1 (by exact hw1)).1
              subst hb
              rw [if_pos (by simp)]
              rfl
            | cons c0 w1' =>
              right
              obtain ⟨rfl, hw1'⟩ := List.cons_prefix_cons.1 (by exact hw1)
              exact ⟨w1', hw1', by simp⟩
      · intro x
        rw [g7 x]
        show x ∈ t.nodes ++ [s ++ [c]] ∨ _ ↔ _
        constructor
        · rintro (h | ⟨w1, hne, hw1, rfl⟩)
          · rcases List.mem_append.1 h with h2 | h2
            · exact Or.inl h2
            · rw [List.mem_singleton.1 h2]
              exact Or.inr ⟨[c], by simp, by simp, by simp⟩
          · exact Or.inr ⟨c :: w1, by simp, by exact List.cons_prefix_cons.2 ⟨rfl, hw1⟩,
              by simp⟩
        · rintro (h | ⟨w1, hne, hw1, rfl⟩)
          · exact Or.inl (List.mem_append_left _ h)
          · cases w1 with
            | nil => exact absurd rfl hne
            | cons c0 w1' =>
              obtain ⟨rfl, hw1'⟩ := List.cons_prefix_cons.1 (by exact hw1)
              cases hw : w1' with
              | nil =>
                left
                subst hw
                exact List.mem_append_right _ (by simp)
              | cons d w2 =>
                right
                subst hw
                exact ⟨d :: w2, by simp, hw1', by simp⟩
    · have hv : v = s ++ [c] := hA _ (lookupL_eq_some_mem hlk)
      subst hv
      have hgo : add_word_go t s (c :: cs') = add_word_go t (s ++ [c]) cs' := by
        simp only [add_word_go, hlk]
      rw [hgo]
      obtain ⟨g1, g2, g3, g4, g5, g6, g7⟩ := ih t (s ++ [c]) hA hT
      refine ⟨by rw [g1]; simp, g2, g3, g4, g5, ?_, ?_⟩
      · intro a' b'
        rw [g6 a' b']
        constructor
        · rintro (h | ⟨w1, hw1, rfl⟩)
          · exact Or.inl h
          · exact Or.inr ⟨c :: w1, by exact List.cons_prefix_cons.2 ⟨rfl, hw1⟩, by simp⟩
        · rintro (h | ⟨w1, hw1, rfl⟩)
          · exact Or.inl h
          · cases w1 with
            | nil =>
              left
              have hb : b' = c := (List.cons_prefix_cons.1 (by exact hw1)).1
              subst hb
              simp only [List.append_nil]
              rw [hlk]
              rfl
            | cons c0 w1' =>
              right
              obtain ⟨rfl, hw1'⟩ := List.cons_prefix_cons.1 (by exact hw1)
              exact ⟨w1', hw1', by simp⟩
      · intro x
        rw [g7 x]
        constructor
        · rintro (h | ⟨w1, hne, hw1, rfl⟩)
          · exact Or.inl h
          · exact Or.inr ⟨c :: w1, by simp, by exact List.cons_prefix_cons.2 ⟨rfl, hw1⟩,
              by simp⟩
        · rintro (h | ⟨w1, hne, hw1, rfl⟩)
          · exact Or.inl h
          · cases w1 with
            | nil => exact absurd rfl hne
            | cons c0 w1' =>
              obtain ⟨rfl, hw1'⟩ := List.cons_prefix_cons.1 (by exact hw1)
              cases hw : w1' with
              | nil =>
                left
                subst hw
                have hsome : (lookupL t.links s c0).isSome := by rw [hlk]; rfl
                simpa using hT s c0 hsome
              | cons d w2 =>
                right
                subst hw
                exact ⟨d :: w2, by simp, hw1', by simp⟩

theorem add_word_spec (t : TrieData) (w : List Nat) (e : Int)
    (hA : ∀ pr ∈ t.links, pr.2 = pr.1.1 ++ [pr.1.2])
    (hT : ∀ a b, (lookupL t.links a b).isSome → a ++ [b] ∈ t.nodes) :
    (add_word t w e).term = t.term ++ [w] ∧
    (add_word t w e).outPairs = t.outPairs ++ [(w, e)] ∧
    (∀ pr ∈ (add_word t w e).links, pr.2 = pr.1.1 ++ [pr.1.2]) ∧
    (∀ a b, (lookupL (add_word t w e).links a b).isSome →
      a ++ [b] ∈ (add_word t w e).nodes) ∧
    (∀ a b, (lookupL (add_word t w e).links a b).isSome ↔
      ((lookupL t.links a b).isSome ∨ a ++ [b] <+: w)) ∧
    (∀ x, x ∈ (add_word t w e).nodes ↔ (x ∈ t.nodes ∨ (x ≠ [] ∧ x <+: w))) := by
  obtain ⟨g1, g2, g3, g4, g5, g6, g7⟩ := add_word_go_spec w t [] hA hT
  have hterm : (add_word t w e).term = (add_word_go t [] w).1.term ++ [(add_word_go t [] w).2] :=
    rfl
  have hout : (add_word t w e).outPairs =
      (add_word_go t [] w).1.outPairs ++ [((add_word_go t [] w).2, e)] := rfl
  have hlinks : (add_word t w e).links = (add_word_go t [] w).1.links := rfl
  have hnodes : (add_word t w e).nodes = (add_word_go t [] w).1.nodes := rfl
  have hw : (add_word_go t [] w).2 = w := by rw [g1]; simp
  refine ⟨by rw [hterm, g2, hw], by rw [hout, g3, hw], by rw [hlinks]; exact g4,
    by rw [hlinks, hnodes]; exact g5, ?_, ?_⟩
  · intro a b
    rw [hlinks, g6 a b]
    constructor
    · rintro (h | ⟨w1, hw1, rfl⟩)
      · exact Or.inl h
      · exact Or.inr (by simpa using hw1)
    · rintro (h | h)
      · exact Or.inl h
      · exact Or.inr ⟨a, h, by simp⟩
  · intro x
    rw [hnodes, g7 x]
    constructor
    · rintro (h | ⟨w1, hne, hw1, rfl⟩)
      · exact Or.inl h
      · exact Or.inr ⟨by simpa using hne, by simpa using hw1⟩
    · rintro (h | ⟨hne, hx⟩)
      · exact Or.inl h
      · exact Or.inr ⟨x, hne, hx, by simp⟩

theorem foldl_add_word_spec : ∀ (prs : List (List Nat × Int)) (t : TrieData),
    (∀ pr ∈ t.links, pr.2 = pr.1.1 ++ [pr.1.2]) →
    (∀ a b, (lookupL t.links a b).isSome → a ++ [b] ∈ t.nodes) →
    (prs.foldl (fun tt pr => add_word tt pr.1 pr.2) t).term = t.term ++ prs.map (·.1) ∧
    (prs.foldl (fun tt pr => add_word tt pr.1 pr.2) t).outPairs = t.outPairs ++ prs ∧
    (∀ pr ∈ (prs.foldl (fun tt pr => add_word tt pr.1 pr.2) t).links,
      pr.2 = pr.1.1 ++ [pr.1.2]) ∧
    (∀ a b, (lookupL (prs.foldl (fun tt pr => add_word tt pr.1 pr.2) t).links a b).isSome ↔
      ((lookupL t.links a b).isSome ∨ ∃ w ∈ prs.map (·.1), a ++ [b] <+: w)) ∧
    (∀ x, x ∈ (prs.foldl (fun tt pr => add_word tt pr.1 pr.2) t).nodes ↔
      (x ∈ t.nodes ∨ ∃ w ∈ prs.map (·.1), x ≠ [] ∧ x <+: w)) := by
  intro prs
  induction prs with
  | nil =>
    intro t hA hT
    refine ⟨by simp, by simp, hA, ?_, ?_⟩
    · intro a b
      simp
    · intro x
      simp
  | cons pr0 prs' ih =>
    intro t hA hT
    obtain ⟨a1, a2, a3, a4, a5, a6⟩ := add_word_spec t pr0.1 pr0.2 hA hT
    have hfold : (pr0 :: prs').foldl (fun tt pr => add_word tt pr.1 pr.2) t =
        prs'.foldl (fun tt pr => add_word tt pr.1 pr.2) (add_word t pr0.1 pr0.2) := rfl
    rw [hfold]
    obtain ⟨g1, g2, g3, g4, g5⟩ := ih (add_word t pr0.1 pr0.2) a3 a4
    refine ⟨by rw [g1, a1]; simp, by rw [g2, a2]; simp, g3, ?_, ?_⟩
    · intro a b
      rw [g4 a b, a5 a b]
      constructor
      · rintro ((h | h) | ⟨w, hwm, hw⟩)
        · exact Or.inl h
        · exact Or.inr ⟨pr0.1, by simp, h⟩
        · exact Or.inr ⟨w, by simp [hwm], hw⟩
      · rintro (h | ⟨w, hwm, hw⟩)
        · exact Or.inl (Or.inl h)
        · rw [List.map_cons] at hwm
          rcases List.mem_cons.1 hwm with h2 | h2
          · exact Or.inl (Or.inr (h2 ▸ hw))
          · exact Or.inr ⟨w, h2, hw⟩
    · intro x
      rw [g5 x, a6 x]
      constructor
      · rintro ((h | h) | ⟨w, hwm, hw⟩)
        · exact Or.inl h
        · exact Or.inr ⟨pr0.1, by simp, h⟩
        · exact Or.inr ⟨w, by simp [hwm], hw⟩
      · rintro (h | ⟨w, hwm, hw⟩)
        · exact Or.inl (Or.inl h)
        · rw [List.map_cons] at hwm
          rcases List.mem_cons.1 hwm with h2 | h2
          · exact Or.inl (Or.inr (h2 ▸ hw))
          · exact Or.inr ⟨w, h2, hw⟩

theorem buildTrie_linkVal (p : List Nat) :
    ∀ pr ∈ (buildTrie p).links, pr.2 = pr.1.1 ++ [pr.1.2] := by
  have h := foldl_add_word_spec (split_to_words p) initTrie
    (by intro pr hpr; simp [initTrie] at hpr)
    (by intro a b hab; rw [show initTrie.links = [] from rfl] at hab; simp [lookupL] at hab)
  exact h.2.2.1

theorem buildTrie_term (p : List Nat) : (buildTrie p).term = wordsK p := by
  have h := foldl_add_word_spec (split_to_words p) initTrie
    (by intro pr hpr; simp [initTrie] at hpr)
    (by intro a b hab; rw [show initTrie.links = [] from rfl] at hab; simp [lookupL] at hab)
  have := h.1
  rwa [show initTrie.term = [] from rfl, List.nil_append] at this

theorem buildTrie_outPairs (p : List Nat) :
    (buildTrie p).outPairs = split_to_words p := by
  have h := foldl_add_word_spec (split_to_words p) initTrie
    (by intro pr hpr; simp [initTrie] at hpr)
    (by intro a b hab; rw [show initTrie.links = [] from rfl] at hab; simp [lookupL] at hab)
  have := h.2.1
  rwa [show initTrie.outPairs = [] from rfl, List.nil_append] at this

theorem buildTrie_links_isSome (p : List Nat) (a : Label) (b : Nat) :
    (lookupL (buildTrie p).links a b).isSome ↔ isNodeB p (a ++ [b]) = true := by
  have h := foldl_add_word_spec (split_to_words p) initTrie
    (by intro pr hpr; simp [initTrie] at hpr)
    (by intro a b hab; rw [show initTrie.links = [] from rfl] at hab; simp [lookupL] at hab)
  rw [show (buildTrie p).links =
    ((split_to_words p).foldl (fun tt pr => add_word tt pr.1 pr.2) initTrie).links from rfl]
  rw [h.2.2.2.1 a b, isNodeB_iff]
  rw [show initTrie.links = [] from rfl]
  constructor
  · rintro (hh | ⟨w, hw, hpre⟩)
    · simp [lookupL] at hh
    · exact Or.inr ⟨by simp, w, hw, hpre⟩
  · rintro (hh | ⟨_, w, hw, hpre⟩)
    · simp at hh
    · exact Or.inr ⟨w, hw, hpre⟩

/-- Membership in the node list of the built trie agrees with `isNodeB`. -/
theorem isNodeB_iff_mem_nodes (p : List Nat) (x : Label) :
    x ∈ (buildTrie p).nodes ↔ isNodeB p x = true := by
  have h := foldl_add_word_spec (split_to_words p) initTrie
    (by intro pr hpr; simp [initTrie] at hpr)
    (by intro a b hab; rw [show initTrie.links = [] from rfl] at hab; simp [lookupL] at hab)
  rw [show (buildTrie p).nodes =
    ((split_to_words p).foldl (fun tt pr => add_word tt pr.1 pr.2) initTrie).nodes from rfl]
  rw [h.2.2.2.2 x, isNodeB_iff]
  rw [show initTrie.nodes = [[]] from rfl]
  constructor
  · rintro (hh | ⟨w, hw, hne, hpre⟩)
    · exact Or.inl (List.mem_singleton.1 hh)
    · exact Or.inr ⟨hne, w, hw, hpre⟩
  · rintro (hh | ⟨hne, w, hw, hpre⟩)
    · exact Or.inl (by simp [hh])
    · exact Or.inr ⟨w, hw, hne, hpre⟩

/-- The lookup-based goto on the freshly built trie agrees with `gotoN`. -/
theorem gotoN_eq_lookup (p : List Nat) (s : Label) (c : Nat) :
    gotoMemo (buildTrie p).links s c = gotoN p s c := by
  unfold gotoMemo gotoN
  cases hlk : lookupL (buildTrie p).links s c with
  | some v =>
    have hval : v = s ++ [c] := buildTrie_linkVal p _ (lookupL_eq_some_mem hlk)
    have hN : isNodeB p (s ++ [c]) = true := by
      rw [← buildTrie_links_isSome p s c, hlk]
      rfl
    rw [if_pos hN, hval]
  | none =>
    have hN : isNodeB p (s ++ [c]) = false := by
      cases hh : isNodeB p (s ++ [c]) with
      | false => rfl
      | true =>
        have := (buildTrie_links_isSome p s c).2 hh
        rw [hlk] at this
        simp at this
    rw [hN]
    simp

/-! ### Output sets -/

theorem mem_ownOut (p : List Nat) (s : Label) (e : Int) :
    e ∈ ownOut p s ↔ (s, e) ∈ split_to_words p := by
  unfold ownOut
  rw [buildTrie_outPairs, List.mem_toFinset, List.mem_map]
  constructor
  · rintro ⟨pr, hpr, rfl⟩
    have h1 : pr.1 = s := of_decide_eq_true (List.mem_filter.1 hpr).2
    have h2 := (List.mem_filter.1 hpr).1
    rwa [show pr = (s, pr.2) from by rw [← h1]] at h2
  · intro h
    exact ⟨(s, e), List.mem_filter.2 ⟨h, by simp⟩, rfl⟩

theorem mem_outSpec (p : List Nat) (s : Label) (e : Int) :
    e ∈ outSpec p s ↔ ∃ w, (w, e) ∈ split_to_words p ∧ w <:+ s := by
  unfold outSpec
  rw [List.mem_toFinset, List.mem_map]
  constructor
  · rintro ⟨pr, hpr, rfl⟩
    have h1 : pr.1 <:+ s := of_decide_eq_true (List.mem_filter.1 hpr).2
    have h2 := (List.mem_filter.1 hpr).1
    exact ⟨pr.1, by rwa [show pr = (pr.1, pr.2) from rfl] at h2, h1⟩
  · rintro ⟨w, hw, hsuf⟩
    exact ⟨(w, e), List.mem_filter.2 ⟨hw, by simpa using hsuf⟩, rfl⟩

theorem outSpec_nil (p : List Nat) : outSpec p [] = ∅ := by
  rw [Finset.eq_empty_iff_forall_not_mem]
  intro e he
  obtain ⟨w, hw, hsuf⟩ := (mem_outSpec p [] e).1 he
  rw [List.suffix_nil.1 hsuf] at hw
  exact seg_word_ne_nil p hw rfl

theorem ownOut_nil (p : List Nat) : ownOut p [] = ∅ := by
  rw [Finset.eq_empty_iff_forall_not_mem]
  intro e he
  exact seg_word_ne_nil p ((mem_ownOut p [] e).1 he) rfl

/-- The per-state recursion for output sets realized by `build_failure`. -/
theorem outSpec_rec (p : List Nat) (s : Label) (hne : s ≠ []) :
    outSpec p s = ownOut p s ∪ outSpec p (failSpec p s) := by
  obtain ⟨a, s', rfl⟩ : ∃ a s', s = a :: s' := by
    cases s with
    | nil => exact absurd rfl hne
    | cons a s' => exact ⟨a, s', rfl⟩
  obtain ⟨hfs, hfN, hfmax⟩ := failSpec_spec p a s'
  ext e
  rw [Finset.mem_union, mem_outSpec, mem_ownOut, mem_outSpec]
  constructor
  · rintro ⟨w, hw, hsuf⟩
    rcases List.suffix_cons_iff.1 hsuf with rfl | hsuf'
    · exact Or.inl hw
    · refine Or.inr ⟨w, hw, ?_⟩
      have hwN : isNodeB p w = true := by
        rw [isNodeB_iff]
        exact Or.inr ⟨seg_word_ne_nil p hw, w, by
          rw [wordsK, List.mem_map]
          exact ⟨(w, e), hw, rfl⟩, List.prefix_refl w⟩
      exact hfmax w hsuf' hwN
  · rintro (hw | ⟨w, hw, hsuf⟩)
    · exact ⟨a :: s', hw, List.suffix_refl _⟩
    · exact ⟨w, hw, (hsuf.trans hfs).trans (List.suffix_cons a s')⟩

theorem outAux_eq (p : List Nat) :
    ∀ fuel s, s.length + 1 ≤ fuel → outAux p fuel s = outSpec p s := by
  intro fuel
  induction fuel with
  | zero => intro s h; omega
  | succ f ih =>
    intro s hfuel
    show (if s = [] then ownOut p s else ownOut p s ∪ outAux p f (failAC p s)) = outSpec p s
    rcases eq_or_ne s [] with rfl | hne
    · rw [if_pos rfl, ownOut_nil, outSpec_nil]
    · rw [if_neg hne, failAC_eq]
      have hlt : (failSpec p s).length < s.length := failSpec_length_lt hne
      rw [ih (failSpec p s) (by omega)]
      exact (outSpec_rec p s hne).symm

theorem outAC_eq (p : List Nat) (s : Label) : outAC p s = outSpec p s :=
  outAux_eq p (s.length + 1) s (Nat.le_refl _)

/-- What the automaton reports after reading `u`: exactly the end offsets of
the segments that occur as suffixes of `u`. -/
theorem outAC_reach (p : List Nat) (u : List Nat) (e : Int) :
    e ∈ outAC p (reachSpec p u) ↔ ∃ w, (w, e) ∈ split_to_words p ∧ w <:+ u := by
  rw [outAC_eq, mem_outSpec]
  obtain ⟨hrs, hrN, hrmax⟩ := reachSpec_spec p u
  constructor
  · rintro ⟨w, hw, hsuf⟩
    exact ⟨w, hw, hsuf.trans hrs⟩
  · rintro ⟨w, hw, hsuf⟩
    refine ⟨w, hw, hrmax w hsuf ?_⟩
    rw [isNodeB_iff]
    exact Or.inr ⟨seg_word_ne_nil p hw, w, by
      rw [wordsK, List.mem_map]
      exact ⟨(w, e), hw, rfl⟩, List.prefix_refl w⟩

/-- A state is terminal exactly when its output set is non-empty. -/
theorem terminalAC_iff (p : List Nat) (s : Label) :
    terminalAC p s = true ↔ outAC p s ≠ ∅ := by
  unfold terminalAC
  rw [Bool.or_eq_true, decide_eq_true_iff, decide_eq_true_iff]
  constructor
  · rintro (h | h)
    · rw [buildTrie_term p] at h
      rw [wordsK, List.mem_map] at h
      obtain ⟨pr, hpr, rfl⟩ := h
      intro hcontra
      have : pr.2 ∈ outAC p pr.1 := by
        rw [outAC_eq, mem_outSpec]
        exact ⟨pr.1, by rwa [show pr = (pr.1, pr.2) from rfl] at hpr, List.suffix_refl _⟩
      rw [hcontra] at this
      simp at this
    · exact h
  · intro h
    exact Or.inr h

/-! ### The pointer-based matcher of `17.cpp` -/

/-- The relative window slot `pos - word_pos - 1 - window_start` computed by
`PatternMatchingMachine::match`. -/
def relOf (pos wstart : Nat) (e : Int) : Int :=
  (pos : Int) - e - 1 - (wstart : Int)

/-- All window accesses of one `match` call are in bounds (`deque::at` throws
`std::out_of_range`, i.e. the program dies, when `0 ≤ rel` and `m ≤ rel`;
negative `rel` is skipped by the `continue`). -/
def matchOkB (S : Finset Int) (pos wstart m : Nat) : Bool :=
  decide (∀ e ∈ S, relOf pos wstart e < (m : Int))

/-- The window after one `match` call: slot `i` is incremented once for every
reported end offset whose relative position is `i`.  The set iteration order of
`std::unordered_set` is irrelevant because distinct offsets hit distinct slots,
so the update is expressed pointwise. -/
def bumpW (S : Finset Int) (pos wstart : Nat) (w : List Nat) : List Nat :=
  List.ofFn (fun i : Fin w.length =>
    w.get i + (S.filter (fun e => relOf pos wstart e = ((i : Nat) : Int))).card)

/-- The mutable state of the `17.cpp` matcher: the link tables of all nodes
(mutated by the memoization in `process`), the current state, the symbol
counter, the sliding window and its start position. -/
structure M17 where
  L : LinkTable
  st : Label
  counter : Nat
  window : List Nat
  wstart : Nat

/-- The failure walk of `process` (Algorithm 1): collect the states with no
edge on `c` into `path`, stepping along (already built) failure links, then
follow the first available goto.  Fuel-indexed; `walk17_eq` proves the fuel
passed by `process17` sufficient. -/
def walk17 (p : List Nat) (L : LinkTable) : Nat → Label → Nat → Option (List Label × Label)
  | 0, _, _ => none
  | fuel + 1, s, c =>
    match gotoMemo L s c with
    | some t => some ([], t)
    | none => (walk17 p L fuel (failAC p s) c).map (fun pr => (s :: pr.1, pr.2))

/-- The matcher state right after the machine is built: trie links, root state,
counter `0`, a window of `pattern_size` zeros, `window_start = 0`. -/
def initM17 (p : List Nat) : M17 :=
  ⟨(buildTrie p).links, [], 0, List.replicate p.length 0, 0⟩

/-- The part of `PatternMatchingMachine::process` that follows the goto walk:
memoize the completed transition for every walked node
(`node->links[c] = state_`), run `match` on the new state (`match` returns at
once on non-terminal states, and crashes — `none` — if a non-negative relative
position falls outside the window), then, once `counter ≥ pattern_size`, test
the oldest slot against the segment count, report a match, and slide the
window. -/
def afterWalk (p : List Nat) (ms : M17) (c : Nat) : List Label × Label → Option (M17 × List Int)
  | (path, st') =>
    if matchOkB (if terminalAC p st' then outAC p st' else ∅)
        (ms.counter + 1) ms.wstart p.length then
      if ms.counter + 1 < p.length then
        some (⟨ms.L ++ path.map (fun s => ((s, c), st')), st', ms.counter + 1,
          bumpW (if terminalAC p st' then outAC p st' else ∅) (ms.counter + 1) ms.wstart
            ms.window, ms.wstart⟩, [])
      else
        some (⟨ms.L ++ path.map (fun s => ((s, c), st')), st', ms.counter + 1,
          (bumpW (if terminalAC p st' then outAC p st' else ∅) (ms.counter + 1) ms.wstart
            ms.window).drop 1 ++ [0], ms.wstart + 1⟩,
          if (bumpW (if terminalAC p st' then outAC p st' else ∅) (ms.counter + 1) ms.wstart
              ms.window).getD 0 0 = (split_to_words p).length
            then [((ms.counter + 1 : Nat) : Int) - (p.length : Int)] else [])
    else none

/-- Translation of `PatternMatchingMachine::process`.  Returns `none` when the
program would die from an out-of-range `deque::at` (or from fuel exhaustion of
the failure walk, which `walk17_eq` excludes).  The emitted match offsets are
returned alongside the successor state.  In the segment-free special case the
counter is advanced and an offset is printed for every symbol past the priming
length (`counter - pattern_size`, or `counter - 1` for the empty pattern). -/
def process17 (p : List Nat) (ms : M17) (c : Nat) : Option (M17 × List Int) :=
  if split_to_words p = [] then
    if ms.counter + 1 < p.length then some ({ ms with counter := ms.counter + 1 }, [])
    else if p.length ≠ 0 then
      some ({ ms with counter := ms.counter + 1 },
        [((ms.counter + 1 : Nat) : Int) - (p.length : Int)])
    else some ({ ms with counter := ms.counter + 1 }, [((ms.counter + 1 : Nat) : Int) - 1])
  else (walk17 p ms.L (ms.st.length + 1) ms.st c).bind (afterWalk p ms c)

/-- Running the `17.cpp` matcher over a whole text (the `main` loop), keeping
the emitted offsets in order. -/
def run17 (p : List Nat) (t : List Nat) : Option (M17 × List Int) :=
  t.foldl (fun acc c => acc.bind (fun pr =>
    (process17 p pr.1 c).map (fun pr2 => (pr2.1, pr.2 ++ pr2.2))))
    (some (initM17 p, []))

/-- The offsets printed by the `17.cpp` program on the given pattern and text. -/
def run17Out (p t : List Nat) : Option (List Int) := (run17 p t).map (·.2)

/-! ### The flattened-array matcher of `17_double_array_trie.cpp` -/

/-- One window update of the flat `main` loop: for each end offset `e` reported
by the reached state (the `output` row stores `e + 1`, zero-terminated, so the
`out[j] > 0` loop visits exactly the output set), the slot
`(pos - (e+1)) & (MAX_SIZE-1)` is incremented when `pos - (e+1) >= 0`. -/
def bumpF (S : Finset Int) (pos : Nat) (w : List Nat) : List Nat :=
  List.ofFn (fun i : Fin w.length =>
    w.get i + (S.filter (fun e => 0 ≤ (pos : Int) - e - 1 ∧
      ((pos : Int) - e - 1).toNat % 8192 = (i : Nat))).card)

/-- The state of the flat matcher: the current automaton state (the program
keeps the packed row offset `(node_id - 1) * 256`, a bijective relabeling of
the trie states, which we model by the state's label), the symbol counter, and
the circular window of `MAX_SIZE = 8192` counters. -/
structure MF where
  st : Label
  pos : Nat
  window : List Nat

/-- One iteration of the flat `main` loop: a single table transition
(`state = transitions[state + c]`, the `do_bfs`-completed function), the window
increments for the new state's output row, and — once `pos ≥ m` — the match
test on slot `(pos - m) & (MAX_SIZE-1)` followed by clearing that slot. -/
def stepFlat (p : List Nat) (fs : MF) (c : Nat) : MF × List Int :=
  let st' := deltaAC p fs.st c
  let k := fs.pos + 1
  let w1 := bumpF (outAC p st') k fs.window
  if p.length ≤ k then
    let a := k - p.length
    let es := if w1.getD (a % 8192) 0 = (split_to_words p).length then [(a : Int)] else []
    (⟨st', k, w1.set (a % 8192) 0⟩, es)
  else (⟨st', k, w1⟩, [])

/-- Running the flat matcher over a whole text. -/
def runFlat (p : List Nat) (t : List Nat) : MF × List Int :=
  t.foldl (fun acc c =>
    ((stepFlat p acc.1 c).1, acc.2 ++ (stepFlat p acc.1 c).2))
    (⟨[], 0, List.replicate 8192 0⟩, [])

/-- The offsets printed by the flat program. -/
def runFlatOut (p t : List Nat) : List Int := (runFlat p t).2

/-! ### The specification of matching -/

/-- Alignment `a` is a wildcard match: every non-wildcard pattern position
agrees with the text. -/
def alignB (p t : List Nat) (a : Nat) : Bool :=
  decide (∀ j, j < p.length → p.getD j 0 ≠ wildcard → t.getD (a + j) 0 = p.getD j 0)

/-- The increasing list of all matching alignments `0 ≤ a ≤ n - m`. -/
def specOffsets (p t : List Nat) : List Int :=
  ((List.range (t.length + 1 - p.length)).filter (alignB p t)).map Int.ofNat

/-- Ghost description of a window slot after the prefix `u` has been
processed: the number of segments already confirmed to end at their correct
position for the alignment `a`. -/
def slotVal (p u : List Nat) (a : Nat) : Nat :=
  ((split_to_words p).filter (fun pr =>
    decide ((a : Int) + pr.2 + 1 ≤ (u.length : Int) ∧
      pr.1 <:+ u.take ((a : Int) + pr.2 + 1).toNat))).length

/-! ### Window-slot accounting -/

theorem length_filter_split {α : Type} (l : List α) (P Q R : α → Bool)
    (h : ∀ x ∈ l, (P x = true ↔ (Q x = true ∨ R x = true)) ∧
      ¬(Q x = true ∧ R x = true)) :
    (l.filter P).length = (l.filter Q).length + (l.filter R).length := by
  induction l with
  | nil => simp
  | cons x l ih =>
    have hx := h x (List.mem_cons_self x l)
    have hrest := fun y hy => h y (List.mem_cons_of_mem x hy)
    have hih := ih hrest
    cases hQ : Q x with
    | true =>
      have hP : P x = true := hx.1.2 (Or.inl hQ)
      have hR : R x = false := by
        cases hR : R x with
        | false => rfl
        | true => exact absurd ⟨hQ, hR⟩ hx.2
      rw [List.filter_cons_of_pos hP, List.filter_cons_of_pos hQ,
        List.filter_cons_of_neg (by simp [hR])]
      simp only [List.length_cons]
      omega
    | false =>
      cases hR : R x with
      | true =>
        have hP : P x = true := hx.1.2 (Or.inr hR)
        rw [List.filter_cons_of_pos hP, List.filter_cons_of_neg (by simp [hQ]),
          List.filter_cons_of_pos hR]
        simp only [List.length_cons]
        omega
      | false =>
        have hP : P x = false := by
          cases hPx : P x with
          | false => rfl
          | true =>
            rcases hx.1.1 hPx with hh | hh
            · rw [hh] at hQ; exact absurd hQ (by simp)
            · rw [hh] at hR; exact absurd hR (by simp)
        rw [List.filter_cons_of_neg (by simp [hP]), List.filter_cons_of_neg (by simp [hQ]),
          List.filter_cons_of_neg (by simp [hR])]
        exact hih

theorem slotVal_nil (p : List Nat) (a : Nat) : slotVal p [] a = 0 := by
  unfold slotVal
  rw [List.length_eq_zero]
  rw [List.filter_eq_nil_iff]
  intro pr hpr
  obtain ⟨e, he, _⟩ := seg_entry p hpr
  simp only [decide_eq_true_eq, not_and]
  intro hle
  rw [he] at hle
  simp at hle
  omega

theorem slotVal_le (p u : List Nat) (a : Nat) :
    slotVal p u a ≤ (split_to_words p).length :=
  List.length_filter_le _ _

/-- Extending the text by one symbol adds to a slot exactly the segments whose
occurrence ends at the new position and fits the slot's alignment. -/
theorem slotVal_snoc (p u : List Nat) (c : Nat) (a : Nat) :
    slotVal p (u ++ [c]) a = slotVal p u a +
      ((split_to_words p).filter (fun pr =>
        decide ((a : Int) + pr.2 + 1 = (u.length : Int) + 1 ∧ pr.1 <:+ u ++ [c]))).length := by
  unfold slotVal
  apply length_filter_split
  intro pr hpr
  obtain ⟨e, he, hne, _, hwlen, helt, _⟩ := seg_entry p hpr
  rw [he]
  simp only [decide_eq_true_eq, List.length_append, List.length_singleton]
  constructor
  · constructor
    · rintro ⟨h1, h2⟩
      rcases Nat.lt_or_ge ((a : Int) + e + 1).toNat (u.length + 1) with hlt | hge
      · left
        have hle : (a : Int) + (e : Int) + 1 ≤ (u.length : Int) := by omega
        refine ⟨hle, ?_⟩
        rwa [List.take_append_of_le_length (by omega)] at h2
      · right
        have heq : (a : Int) + (e : Int) + 1 = (u.length : Int) + 1 := by
          push_cast at h1 ⊢
          omega
        refine ⟨heq, ?_⟩
        have htk : (u ++ [c]).take ((a : Int) + (e : Int) + 1).toNat = u ++ [c] := by
          apply List.take_of_length_le
          simp
          omega
        rwa [htk] at h2
    · rintro (⟨h1, h2⟩ | ⟨h1, h2⟩)
      · refine ⟨by push_cast; omega, ?_⟩
        rwa [List.take_append_of_le_length (by omega)]
      · refine ⟨by omega, ?_⟩
        have htk : (u ++ [c]).take ((a : Int) + (e : Int) + 1).toNat = u ++ [c] := by
          apply List.take_of_length_le
          simp
          omega
        rwa [htk]
  · rintro ⟨⟨h1, _⟩, ⟨h2, _⟩⟩
    omega

/-- The number of increments a slot receives in one step equals the number of
newly confirmed segment occurrences for its alignment: the output set reported
by the reached state, filtered to the slot's alignment, is in bijection (via
the end offset) with the corresponding segment list. -/
theorem card_filter_outAC (p u : List Nat) (c : Nat) (a : Nat) :
    ((outAC p (reachSpec p (u ++ [c]))).filter
        (fun e => (a : Int) + e + 1 = (u.length : Int) + 1)).card =
    ((split_to_words p).filter (fun pr =>
        decide ((a : Int) + pr.2 + 1 = (u.length : Int) + 1 ∧ pr.1 <:+ u ++ [c]))).length := by
  have hsub : ((split_to_words p).filter (fun pr =>
      decide ((a : Int) + pr.2 + 1 = (u.length : Int) + 1 ∧ pr.1 <:+ u ++ [c]))).Sublist
      (split_to_words p) := List.filter_sublist _
  have hpw := (seg_pairwise p).sublist hsub
  have hnd : (((split_to_words p).filter (fun pr =>
      decide ((a : Int) + pr.2 + 1 = (u.length : Int) + 1 ∧ pr.1 <:+ u ++ [c]))).map
      (·.2)).Nodup := by
    rw [List.Nodup, List.pairwise_map]
    exact hpw.imp (by intro x y h; omega)
  have hset : (outAC p (reachSpec p (u ++ [c]))).filter
      (fun e => (a : Int) + e + 1 = (u.length : Int) + 1) =
      (((split_to_words p).filter (fun pr =>
        decide ((a : Int) + pr.2 + 1 = (u.length : Int) + 1 ∧ pr.1 <:+ u ++ [c]))).map
        (·.2)).toFinset := by
    ext e
    rw [Finset.mem_filter, List.mem_toFinset, List.mem_map]
    constructor
    · rintro ⟨he, hcond⟩
      obtain ⟨w, hw, hsuf⟩ := (outAC_reach p (u ++ [c]) e).1 he
      refine ⟨(w, e), List.mem_filter.2 ⟨hw, ?_⟩, rfl⟩
      simp only [decide_eq_true_eq]
      exact ⟨hcond, hsuf⟩
    · rintro ⟨pr, hpr, rfl⟩
      have h1 := (List.mem_filter.1 hpr).1
      have h2 := of_decide_eq_true (List.mem_filter.1 hpr).2
      refine ⟨(outAC_reach p (u ++ [c]) pr.2).2 ⟨pr.1, ?_, h2.2⟩, h2.1⟩
      rwa [show pr = (pr.1, pr.2) from rfl] at h1
  rw [hset, List.toFinset_card_of_nodup hnd, List.length_map]

/-- The slot is full exactly when the alignment is a wildcard match: every
segment of the pattern has been confirmed at its correct position. -/
theorem slotVal_full_iff (p u' : List Nat) (a : Nat) (ha : a + p.length ≤ u'.length) :
    slotVal p u' a = (split_to_words p).length ↔ alignB p u' a = true := by
  unfold slotVal alignB
  rw [List.filter_length_eq_length, decide_eq_true_iff]
  constructor
  · intro hall j hj hjw
    obtain ⟨pr, hpr, hcov⟩ := (split_bundle p).2.2 j hj hjw
    obtain ⟨e, he2, hne, hchars, hwlen, helt, hsl, _, _⟩ := seg_entry p hpr
    obtain ⟨e', he2', i, hi, hji⟩ := hcov
    have hee : e = e' := by omega
    subst hee
    have hpass := of_decide_eq_true (hall pr hpr)
    rw [he2] at hpass
    obtain ⟨hle, hsuf⟩ := hpass
    have hq : ((a : Int) + (e : Int) + 1).toNat = a + e + 1 := by omega
    rw [hq] at hsuf
    have hchar := (suffix_take_iff_getD (by omega) (by omega)).1 hsuf i (by omega)
    have hidx : a + e + 1 - pr.1.length + i = a + j := by omega
    rw [hidx] at hchar
    rw [hchar]
    have hsl2 := hsl i (by omega)
    have hidx2 : e + 1 - pr.1.length + i = j := by omega
    rw [hidx2] at hsl2
    rw [hsl2]
  · intro halign pr hpr
    obtain ⟨e, he2, hne, hchars, hwlen, helt, hsl, _, _⟩ := seg_entry p hpr
    rw [he2]
    simp only [decide_eq_true_eq]
    refine ⟨by omega, ?_⟩
    have hq : ((a : Int) + (e : Int) + 1).toNat = a + e + 1 := by omega
    rw [hq]
    rw [suffix_take_iff_getD (by omega) (by omega)]
    intro i hi
    have hsl2 := hsl i hi
    have hj : e + 1 - pr.1.length + i < p.length := by omega
    have hjw : p.getD (e + 1 - pr.1.length + i) 0 ≠ wildcard := by
      rw [hsl2]
      apply hchars
      rw [List.getD_eq_getElem pr.1 0 hi]
      exact List.getElem_mem hi
    have := halign (e + 1 - pr.1.length + i) hj hjw
    have hidx : a + (e + 1 - pr.1.length + i) = a + e + 1 - pr.1.length + i := by omega
    rw [hidx] at this
    rw [this, hsl2]

/-- Alignments strictly inside the processed prefix are unaffected by
extending the text. -/
theorem alignB_snoc (p u : List Nat) (c : Nat) (a : Nat) (ha : a + p.length ≤ u.length) :
    alignB p (u ++ [c]) a = alignB p u a := by
  unfold alignB
  rw [decide_eq_decide]
  constructor
  · intro h j hj hjw
    have := h j hj hjw
    rwa [List.getD_append _ _ _ _ (by omega)] at this
  · intro h j hj hjw
    rw [List.getD_append _ _ _ _ (by omega)]
    exact h j hj hjw

/-- One step of the specification offset list. -/
theorem specOffsets_snoc (p u : List Nat) (c : Nat) :
    specOffsets p (u ++ [c]) = specOffsets p u ++
      (if p.length ≤ u.length + 1 ∧ alignB p (u ++ [c]) (u.length + 1 - p.length) = true
        then [((u.length + 1 - p.length : Nat) : Int)] else []) := by
  unfold specOffsets
  rcases Nat.lt_or_ge (u.length + 1) p.length with hlt | hge
  · rw [if_neg (by omega)]
    have h1 : (u ++ [c]).length + 1 - p.length = 0 := by simp; omega
    have h2 : u.length + 1 - p.length = 0 := by omega
    rw [h1, h2]
    simp
  · have h1 : (u ++ [c]).length + 1 - p.length = (u.length + 1 - p.length) + 1 := by
      simp
      omega
    rw [h1, List.range_succ, List.filter_append, List.map_append]
    have h2 : (List.range (u.length + 1 - p.length)).filter (alignB p (u ++ [c])) =
        (List.range (u.length + 1 - p.length)).filter (alignB p u) := by
      apply List.filter_congr
      intro a ha
      rw [List.mem_range] at ha
      exact alignB_snoc p u c a (by omega)
    rw [h2]
    congr 1
    cases halign : alignB p (u ++ [c]) (u.length + 1 - p.length) with
    | true =>
      rw [if_pos ⟨by omega, rfl⟩]
      simp [List.filter_singleton, halign]
    | false =>
      rw [if_neg (by rintro ⟨_, hcontra⟩; simp at hcontra)]
      simp [List.filter_singleton, halign]

/-! ### The memoized failure walk of `process` -/

/-- Invariant of the link tables during matching: every entry maps a state to
its completed transition (trie edges do so because a trie edge is the longest
possible suffix extension; memoized entries do so by construction), and every
trie edge is present. -/
def InvL (p : List Nat) (L : LinkTable) : Prop :=
  (∀ pr ∈ L, isNodeB p pr.1.1 = true ∧ pr.2 = extN p pr.1.1 pr.1.2) ∧
  (∀ a b, isNodeB p (a ++ [b]) = true → (lookupL L a b).isSome)

theorem extN_edge (p : List Nat) (s : Label) (c : Nat)
    (h : isNodeB p (s ++ [c]) = true) : extN p s c = s ++ [c] := by
  have hsN : isNodeB p s = true :=
    isNodeB_downward h (List.prefix_append s [c])
  rcases extN_spec p s c with ⟨_, hno⟩ | ⟨t, hts, _, _, hval, hmax⟩
  · exact absurd h (by rw [hno s (List.suffix_refl s) hsN]; simp)
  · rw [hval]
    have h2 : s <:+ t := hmax s (List.suffix_refl s) hsN h
    rw [suffix_antisymm h2 hts]

theorem extN_nil_no_edge (p : List Nat) (c : Nat)
    (h : isNodeB p ([c] : Label) = false) : extN p [] c = [] := by
  unfold extN
  have : ∀ t ∈ ([] : Label).tails, ¬(isNodeB p t && isNodeB p (t ++ [c])) = true := by
    intro t ht
    rw [List.mem_tails] at ht
    rw [List.suffix_nil.1 ht]
    simp [h]
  rw [List.filter_eq_nil_iff.2 this]
  rfl

theorem invL_buildTrie (p : List Nat) : InvL p (buildTrie p).links := by
  constructor
  · intro pr hpr
    have hval := buildTrie_linkVal p pr hpr
    have hsome : (lookupL (buildTrie p).links pr.1.1 pr.1.2).isSome :=
      lookupL_isSome_iff.2 ⟨pr.2, by
        rwa [show ((pr.1.1, pr.1.2), pr.2) = pr from rfl]⟩
    have hN : isNodeB p (pr.1.1 ++ [pr.1.2]) = true :=
      (buildTrie_links_isSome p pr.1.1 pr.1.2).1 hsome
    refine ⟨isNodeB_downward hN (List.prefix_append _ _), ?_⟩
    rw [hval, extN_edge p _ _ hN]
  · intro a b h
    exact (buildTrie_links_isSome p a b).2 h

/-- The failure walk of `process` succeeds with the fuel the caller passes,
returns the completed transition, and every state pushed on the path has that
same completed transition (so memoizing it preserves the table invariant). -/
theorem walk17_eq (p : List Nat) (L : LinkTable) (hInv : InvL p L) :
    ∀ fuel s c, isNodeB p s = true → s.length + 1 ≤ fuel →
    ∃ path, walk17 p L fuel s c = some (path, extN p s c) ∧
      ∀ x ∈ path, isNodeB p x = true ∧ extN p x c = extN p s c := by
  intro fuel
  induction fuel with
  | zero => intro s c _ h; omega
  | succ f ih =>
    intro s c hsN hfuel
    show ∃ path, (match gotoMemo L s c with
      | some t => some ([], t)
      | none => (walk17 p L f (failAC p s) c).map (fun pr => (s :: pr.1, pr.2))) =
        some (path, extN p s c) ∧ _
    rcases hg : gotoMemo L s c with _ | t
    · have hlk : lookupL L s c = none := by
        unfold gotoMemo at hg
        cases hl : lookupL L s c with
        | none => rfl
        | some v => rw [hl] at hg; simp at hg
      have hne : s ≠ [] := by
        intro h
        unfold gotoMemo at hg
        rw [hlk, if_pos h] at hg
        simp at hg
      have hedge : isNodeB p (s ++ [c]) = false := by
        cases hh : isNodeB p (s ++ [c]) with
        | false => rfl
        | true =>
          have := hInv.2 s c hh
          rw [hlk] at this
          simp at this
      rw [failAC_eq]
      have hlt : (failSpec p s).length < s.length := failSpec_length_lt hne
      obtain ⟨path', hwalk', hpath'⟩ := ih (failSpec p s) c (failSpec_isNodeB p s) (by omega)
      refine ⟨s :: path', ?_, ?_⟩
      · rw [hwalk']
        have : extN p (failSpec p s) c = extN p s c := (extN_peel hne hsN hedge).symm
        rw [this]
        rfl
      · intro x hx
        rcases List.mem_cons.1 hx with rfl | hx'
        · exact ⟨hsN, rfl⟩
        · obtain ⟨h1, h2⟩ := hpath' x hx'
          exact ⟨h1, by rw [h2, ← extN_peel hne hsN hedge]⟩
    · refine ⟨[], ?_, by intro x hx; simp at hx⟩
      unfold gotoMemo at hg
      cases hl : lookupL L s c with
      | some v =>
        rw [hl] at hg
        have hv : v = t := by
          have h3 : (some v : Option Label) = some t := hg
          injection h3
        subst hv
        have hmem := lookupL_eq_some_mem hl
        have h2 : v = extN p s c := (hInv.1 _ hmem).2
        show some ([], v) = some ([], extN p s c)
        rw [h2]
      | none =>
        rw [hl] at hg
        rcases eq_or_ne s [] with rfl | hne
        · rw [if_pos rfl] at hg
          have ht : t = [] := by injection hg with h; exact h.symm
          subst ht
          have hedge : isNodeB p ([] ++ [c] : Label) = false := by
            cases hh : isNodeB p ([] ++ [c] : Label) with
            | false => rfl
            | true =>
              have := hInv.2 [] c hh
              rw [hl] at this
              simp at this
          rw [extN_nil_no_edge p c (by simpa using hedge)]
        · rw [if_neg hne] at hg
          simp at hg

theorem invL_append (p : List Nat) (L : LinkTable) (path : List Label) (c : Nat) (v : Label)
    (hL : InvL p L) (hpath : ∀ x ∈ path, isNodeB p x = true ∧ extN p x c = v) :
    InvL p (L ++ path.map (fun s => ((s, c), v))) := by
  constructor
  · intro pr hpr
    rcases List.mem_append.1 hpr with h | h
    · exact hL.1 pr h
    · obtain ⟨x, hx, rfl⟩ := List.mem_map.1 h
      obtain ⟨h1, h2⟩ := hpath x hx
      exact ⟨h1, h2.symm⟩
  · intro a b h
    rw [lookupL_append]
    have h2 := hL.2 a b h
    cases hl : lookupL L a b with
    | none => rw [hl] at h2; simp at h2
    | some v' => simp

theorem bumpW_getD (S : Finset Int) (pos ws : Nat) (w : List Nat) (i : Nat)
    (hi : i < w.length) :
    (bumpW S pos ws w).getD i 0 = w.getD i 0 +
      (S.filter (fun e => relOf pos ws e = ((i : Nat) : Int))).card := by
  unfold bumpW
  have hlen : (List.ofFn (fun j : Fin w.length =>
      w.get j + (S.filter (fun e => relOf pos ws e = ((j : Nat) : Int))).card)).length =
      w.length := by
    rw [List.length_ofFn]
  rw [List.getD_eq_getElem _ _ (by omega), List.getElem_ofFn]
  rw [List.getD_eq_getElem _ _ hi]
  rfl

theorem slotVal_zero_of_big (p u' : List Nat) (a : Nat) (ha : u'.length ≤ a) :
    slotVal p u' a = 0 := by
  unfold slotVal
  rw [List.length_eq_zero, List.filter_eq_nil_iff]
  intro pr hpr
  obtain ⟨e, he, _⟩ := seg_entry p hpr
  simp only [decide_eq_true_eq, not_and]
  intro hle
  rw [he] at hle
  omega

/-- Invariant of the `17.cpp` matcher after processing the prefix `u` (the
case of a pattern with at least one segment). -/
def Inv17 (p u : List Nat) (ms : M17) : Prop :=
  InvL p ms.L ∧
  ms.st = reachSpec p u ∧
  ms.counter = u.length ∧
  ms.wstart = u.length + 1 - p.length ∧
  ms.window.length = p.length ∧
  (∀ i, i < p.length → ms.window.getD i 0 = slotVal p u (ms.wstart + i))

theorem inv17_init (p : List Nat) (hm : 1 ≤ p.length) : Inv17 p [] (initM17 p) := by
  refine ⟨invL_buildTrie p, (reachSpec_nil p).symm, rfl, by simp [initM17]; omega, by
    simp [initM17], ?_⟩
  intro i hi
  show (List.replicate p.length 0).getD i 0 = slotVal p [] (0 + i)
  rw [slotVal_nil]
  rw [List.getD_eq_getElem _ _ (by simpa using hi)]
  simp

/-- One step of the `17.cpp` matcher preserves the invariant and emits exactly
the specified offset (if any) for the newly completed alignment. -/
theorem process17_step (p u : List Nat) (c : Nat) (ms : M17)
    (hW : split_to_words p ≠ []) (hInv : Inv17 p u ms) :
    ∃ ms', process17 p ms c = some (ms',
      if p.length ≤ u.length + 1 ∧ alignB p (u ++ [c]) (u.length + 1 - p.length) = true
        then [((u.length + 1 - p.length : Nat) : Int)] else []) ∧
      Inv17 p (u ++ [c]) ms' := by
  obtain ⟨hL, hst, hcnt, hws, hwl, hwin⟩ := hInv
  have hm : 1 ≤ p.length := length_pos_of_split_ne_nil p hW
  have hstN : isNodeB p ms.st = true := by
    rw [hst]
    exact (reachSpec_spec p u).2.1
  obtain ⟨path, hwalk, hpath⟩ :=
    walk17_eq p ms.L hL (ms.st.length + 1) ms.st c hstN (Nat.le_refl _)
  have hreach : extN p ms.st c = reachSpec p (u ++ [c]) := by
    rw [hst, ← reachSpec_snoc]
  have hL' : InvL p (ms.L ++ path.map (fun s => ((s, c), extN p ms.st c))) :=
    invL_append p ms.L path c _ hL hpath
  have hS : (if terminalAC p (extN p ms.st c) then outAC p (extN p ms.st c) else ∅)
      = outAC p (extN p ms.st c) := by
    cases hterm : terminalAC p (extN p ms.st c) with
    | true => rfl
    | false =>
      have hempty : outAC p (extN p ms.st c) = ∅ := by
        by_contra hcon
        have h2 := (terminalAC_iff p _).2 hcon
        rw [hterm] at h2
        exact absurd h2 (by simp)
      rw [if_neg (by simp), hempty]
  have hout : ∀ e ∈ outAC p (extN p ms.st c), ∃ en : Nat, e = (en : Int) ∧ en < p.length := by
    intro e he
    rw [hreach] at he
    obtain ⟨w, hw, _⟩ := (outAC_reach p (u ++ [c]) e).1 he
    obtain ⟨en, he2, _, _, _, helt, _⟩ := seg_entry p hw
    exact ⟨en, he2, helt⟩
  have hOk : matchOkB (outAC p (extN p ms.st c)) (ms.counter + 1) ms.wstart p.length
      = true := by
    unfold matchOkB
    rw [decide_eq_true_eq]
    intro e he
    obtain ⟨en, rfl, hlt⟩ := hout e he
    unfold relOf
    rw [hcnt, hws]
    omega
  have hw1 : ∀ i, i < p.length →
      (bumpW (outAC p (extN p ms.st c)) (ms.counter + 1) ms.wstart ms.window).getD i 0 =
      slotVal p (u ++ [c]) (ms.wstart + i) := by
    intro i hi
    rw [bumpW_getD _ _ _ _ i (by omega)]
    rw [hwin i hi]
    have hcardeq : (outAC p (extN p ms.st c)).filter
        (fun e => relOf (ms.counter + 1) ms.wstart e = ((i : Nat) : Int)) =
        (outAC p (reachSpec p (u ++ [c]))).filter
        (fun e => ((ms.wstart + i : Nat) : Int) + e + 1 = (u.length : Int) + 1) := by
      rw [hreach]
      apply Finset.filter_congr
      intro e he
      rw [← hreach] at he
      obtain ⟨en, rfl, hlt⟩ := hout e he
      unfold relOf
      rw [hcnt, hws]
      constructor
      · intro h
        omega
      · intro h
        omega
    rw [hcardeq, card_filter_outAC p u c (ms.wstart + i), slotVal_snoc p u c (ms.wstart + i)]
  have hstep : process17 p ms c = afterWalk p ms c (path, extN p ms.st c) := by
    unfold process17
    rw [if_neg hW, hwalk, Option.some_bind]
  rcases Nat.lt_or_ge (ms.counter + 1) p.length with hklt | hkge
  · refine ⟨⟨ms.L ++ path.map (fun s => ((s, c), extN p ms.st c)), extN p ms.st c,
      ms.counter + 1,
      bumpW (outAC p (extN p ms.st c)) (ms.counter + 1) ms.wstart ms.window,
      ms.wstart⟩, ?_, ?_⟩
    · rw [hstep]
      show (if matchOkB (if terminalAC p (extN p ms.st c) then outAC p (extN p ms.st c)
          else ∅) (ms.counter + 1) ms.wstart p.length then _ else none) = _
      rw [hS, if_pos hOk, if_pos hklt]
      rw [if_neg (by omega)]
    · refine ⟨hL', hreach, by simp [hcnt], by simp; omega, by
        show (bumpW _ _ _ ms.window).length = p.length
        rw [show (bumpW (outAC p (extN p ms.st c)) (ms.counter + 1) ms.wstart
          ms.window).length = ms.window.length from List.length_ofFn _, hwl], ?_⟩
      intro i hi
      show (bumpW _ _ _ ms.window).getD i 0 = slotVal p (u ++ [c]) (ms.wstart + i)
      exact hw1 i hi
  · refine ⟨⟨ms.L ++ path.map (fun s => ((s, c), extN p ms.st c)), extN p ms.st c,
      ms.counter + 1,
      (bumpW (outAC p (extN p ms.st c)) (ms.counter + 1) ms.wstart ms.window).drop 1 ++ [0],
      ms.wstart + 1⟩, ?_, ?_⟩
    · rw [hstep]
      show (if matchOkB (if terminalAC p (extN p ms.st c) then outAC p (extN p ms.st c)
          else ∅) (ms.counter + 1) ms.wstart p.length then _ else none) = _
      rw [hS, if_pos hOk, if_neg (by omega)]
      have hemit : ((bumpW (outAC p (extN p ms.st c)) (ms.counter + 1) ms.wstart
          ms.window).getD 0 0 = (split_to_words p).length) ↔
          (alignB p (u ++ [c]) (u.length + 1 - p.length) = true) := by
        rw [hw1 0 (by omega)]
        have ha0 : ms.wstart + 0 = u.length + 1 - p.length := by omega
        rw [ha0]
        exact slotVal_full_iff p (u ++ [c]) (u.length + 1 - p.length) (by simp; omega)
      by_cases halign : alignB p (u ++ [c]) (u.length + 1 - p.length) = true
      · rw [if_pos (hemit.2 halign), if_pos ⟨by omega, halign⟩]
        have : ms.counter + 1 = u.length + 1 := by omega
        rw [this]
        have h2 : ((u.length + 1 : Nat) : Int) - (p.length : Int) =
            ((u.length + 1 - p.length : Nat) : Int) := by omega
        rw [h2]
      · rw [if_neg (by rw [hemit]; exact halign), if_neg (by rintro ⟨_, h2⟩; exact halign h2)]
    · refine ⟨hL', hreach, by simp [hcnt], by simp; omega, ?_, ?_⟩
      · show ((bumpW _ _ _ ms.window).drop 1 ++ [0]).length = p.length
        rw [List.length_append, List.length_drop]
        rw [show (bumpW (outAC p (extN p ms.st c)) (ms.counter + 1) ms.wstart
          ms.window).length = ms.window.length from List.length_ofFn _, hwl]
        simp
        omega
      · intro i hi
        show ((bumpW _ _ _ ms.window).drop 1 ++ [0]).getD i 0 =
          slotVal p (u ++ [c]) (ms.wstart + 1 + i)
        have hblen : (bumpW (outAC p (extN p ms.st c)) (ms.counter + 1) ms.wstart
            ms.window).length = p.length := by
          rw [show (bumpW (outAC p (extN p ms.st c)) (ms.counter + 1) ms.wstart
            ms.window).length = ms.window.length from List.length_ofFn _, hwl]
        rcases Nat.lt_or_ge i (p.length - 1) with hilt | hige
        · rw [List.getD_append _ _ _ _ (by rw [List.length_drop, hblen]; omega)]
          have hdg : ((bumpW (outAC p (extN p ms.st c)) (ms.counter + 1) ms.wstart
              ms.window).drop 1).getD i 0 =
              (bumpW (outAC p (extN p ms.st c)) (ms.counter + 1) ms.wstart
              ms.window).getD (1 + i) 0 := by
            simp only [List.getD_eq_getElem?_getD, List.getElem?_drop]
          rw [hdg]
          rw [show 1 + i = i + 1 from by omega]
          rw [hw1 (i + 1) (by omega)]
          have : ms.wstart + (i + 1) = ms.wstart + 1 + i := by omega
          rw [this]
        · have hieq : i = p.length - 1 := by omega
          subst hieq
          rw [List.getD_append_right _ _ _ _ (by rw [List.length_drop, hblen])]
          have hidx : p.length - 1 - ((bumpW (outAC p (extN p ms.st c)) (ms.counter + 1)
              ms.wstart ms.window).drop 1).length = 0 := by
            rw [List.length_drop, hblen]
            omega
          rw [hidx]
          show (0 : Nat) = slotVal p (u ++ [c]) (ms.wstart + 1 + (p.length - 1))
          rw [slotVal_zero_of_big]
          simp
          omega

theorem run17_snoc (p u : List Nat) (c : Nat) :
    run17 p (u ++ [c]) = (run17 p u).bind (fun pr =>
      (process17 p pr.1 c).map (fun pr2 => (pr2.1, pr.2 ++ pr2.2))) := by
  unfold run17
  rw [List.foldl_append]
  rfl

theorem specOffsets_nil (p : List Nat) (hm : 1 ≤ p.length) : specOffsets p [] = [] := by
  unfold specOffsets
  rw [show ([] : List Nat).length + 1 - p.length = 0 from by simp; omega]
  rfl

/-- Main run lemma for `17.cpp`, segment case: the machine never crashes and
emits exactly the specified offsets. -/
theorem run17_words (p t : List Nat) (hW : split_to_words p ≠ []) :
    ∃ ms, run17 p t = some (ms, specOffsets p t) ∧ Inv17 p t ms := by
  have hm : 1 ≤ p.length := length_pos_of_split_ne_nil p hW
  induction t using List.reverseRecOn with
  | nil =>
    refine ⟨initM17 p, ?_, inv17_init p hm⟩
    rw [specOffsets_nil p hm]
    rfl
  | append_singleton u c ih =>
    obtain ⟨ms, hrun, hInv⟩ := ih
    obtain ⟨ms', hproc, hInv'⟩ := process17_step p u c ms hW hInv
    refine ⟨ms', ?_, hInv'⟩
    rw [run17_snoc, hrun, Option.some_bind, hproc, Option.map_some']
    rw [specOffsets_snoc]

theorem alignB_all_wild (p v : List Nat) (a : Nat)
    (h : ∀ j, j < p.length → p.getD j 0 = wildcard) : alignB p v a = true := by
  unfold alignB
  rw [decide_eq_true_eq]
  intro j hj hjw
  exact absurd (h j hj) hjw

/-- Main run lemma for `17.cpp`, segment-free case with non-empty pattern:
one offset per symbol from the priming length on; the state only advances the
counter. -/
theorem run17_nowords (p t : List Nat) (hW : split_to_words p = []) (hm : 1 ≤ p.length) :
    run17 p t = some (⟨(buildTrie p).links, [], t.length, List.replicate p.length 0, 0⟩,
      specOffsets p t) := by
  induction t using List.reverseRecOn with
  | nil =>
    rw [specOffsets_nil p hm]
    rfl
  | append_singleton u c ih =>
    rw [run17_snoc, ih, Option.some_bind]
    have hproc : process17 p ⟨(buildTrie p).links, [], u.length,
        List.replicate p.length 0, 0⟩ c =
        (if u.length + 1 < p.length then
          some (⟨(buildTrie p).links, [], u.length + 1, List.replicate p.length 0, 0⟩, [])
        else
          some (⟨(buildTrie p).links, [], u.length + 1, List.replicate p.length 0, 0⟩,
            [((u.length + 1 : Nat) : Int) - (p.length : Int)])) := by
      unfold process17
      dsimp only
      rw [if_pos hW]
      rcases Nat.lt_or_ge (u.length + 1) p.length with h | h
      · rw [if_pos h, if_pos h]
      · rw [if_neg (show ¬(u.length + 1 < p.length) from by omega),
          if_pos (show p.length ≠ 0 from by omega),
          if_neg (show ¬(u.length + 1 < p.length) from by omega)]
    rw [hproc, specOffsets_snoc]
    rcases Nat.lt_or_ge (u.length + 1) p.length with h | h
    · rw [if_pos h, if_neg (by omega), Option.map_some']
      simp
    · rw [if_neg (by omega)]
      rw [if_pos (show p.length ≤ u.length + 1 ∧
          alignB p (u ++ [c]) (u.length + 1 - p.length) = true from
        ⟨by omega, alignB_all_wild p (u ++ [c]) _ (all_wildcard_of_split_nil p hW)⟩)]
      rw [Option.map_some']
      have hval : ((u.length + 1 : Nat) : Int) - (p.length : Int) =
          Int.ofNat (u.length + 1 - p.length) := by
        rw [show Int.ofNat (u.length + 1 - p.length) = ((u.length + 1 - p.length : Nat) : Int)
          from rfl]
        omega
      rw [hval]
      simp

/-- Main run lemma for `17.cpp`, empty pattern: one offset per symbol, namely
`counter - 1`, i.e. `0, 1, …, n-1`. -/
theorem run17_empty (t : List Nat) :
    run17 [] t = some (⟨(buildTrie []).links, [], t.length, [], 0⟩,
      (List.range t.length).map Int.ofNat) := by
  induction t using List.reverseRecOn with
  | nil => rfl
  | append_singleton u c ih =>
    rw [run17_snoc, ih, Option.some_bind]
    have hproc : process17 [] ⟨(buildTrie []).links, [], u.length, [], 0⟩ c =
        some (⟨(buildTrie []).links, [], u.length + 1, [], 0⟩,
          [((u.length + 1 : Nat) : Int) - 1]) := by
      unfold process17
      dsimp only
      rw [if_pos (show split_to_words ([] : List Nat) = [] from rfl),
        if_neg (show ¬(u.length + 1 < ([] : List Nat).length) from by simp),
        if_neg (show ¬(([] : List Nat).length ≠ 0) from by simp)]
    rw [hproc, Option.map_some']
    have hval : ((u.length + 1 : Nat) : Int) - 1 = Int.ofNat u.length := by
      rw [show Int.ofNat u.length = ((u.length : Nat) : Int) from rfl]
      omega
    rw [hval]
    simp [List.range_succ]

/-- Functional correctness of the `17.cpp` matcher, all patterns of positive
length. -/
theorem run17_correct (p t : List Nat) (hm : 1 ≤ p.length) :
    run17Out p t = some (specOffsets p t) := by
  unfold run17Out
  rcases eq_or_ne (split_to_words p) [] with hW | hW
  · rw [run17_nowords p t hW hm]
    rfl
  · obtain ⟨ms, hrun, _⟩ := run17_words p t hW
    rw [hrun]
    rfl

/-! ### Correctness of the flat matcher -/

theorem bumpF_length (S : Finset Int) (pos : Nat) (w : List Nat) :
    (bumpF S pos w).length = w.length := List.length_ofFn _

theorem bumpF_getD (S : Finset Int) (pos : Nat) (w : List Nat) (i : Nat)
    (hi : i < w.length) :
    (bumpF S pos w).getD i 0 = w.getD i 0 +
      (S.filter (fun e => 0 ≤ (pos : Int) - e - 1 ∧
        ((pos : Int) - e - 1).toNat % 8192 = i)).card := by
  unfold bumpF
  have hlen : (List.ofFn (fun j : Fin w.length =>
      w.get j + (S.filter (fun e => 0 ≤ (pos : Int) - e - 1 ∧
        ((pos : Int) - e - 1).toNat % 8192 = (j : Nat))).card)).length = w.length := by
    rw [List.length_ofFn]
  rw [List.getD_eq_getElem _ _ (by omega), List.getElem_ofFn]
  rw [List.getD_eq_getElem _ _ hi]
  rfl

theorem getD_set_ne (w : List Nat) (i j : Nat) (hij : i ≠ j) :
    (w.set i 0).getD j 0 = w.getD j 0 := by
  simp only [List.getD_eq_getElem?_getD]
  rw [List.getElem?_set_ne hij]

theorem getD_set_self0 (w : List Nat) (i : Nat) (hi : i < w.length) :
    (w.set i 0).getD i 0 = 0 := by
  simp only [List.getD_eq_getElem?_getD]
  rw [List.getElem?_set_self hi]
  rfl

theorem set_replicate_zero (n i : Nat) :
    (List.replicate n (0 : Nat)).set i 0 = List.replicate n 0 := by
  apply List.ext_getElem
  · rw [List.length_set]
  · intro j h1 h2
    rcases eq_or_ne i j with rfl | hne
    · rw [List.getElem_set_self]
      rw [List.getElem_replicate]
    · rw [List.getElem_set_ne hne]

theorem getD_replicate_zero (n i : Nat) (h : i < n) :
    (List.replicate n (0 : Nat)).getD i 0 = 0 := by
  rw [List.getD_eq_getElem _ _ (by rwa [List.length_replicate])]
  exact List.getElem_replicate _ _

/-- Unfolding of one flat iteration. -/
theorem stepFlat_eq (p : List Nat) (fs : MF) (c : Nat) :
    stepFlat p fs c =
      if p.length ≤ fs.pos + 1 then
        (⟨deltaAC p fs.st c, fs.pos + 1,
          (bumpF (outAC p (deltaAC p fs.st c)) (fs.pos + 1) fs.window).set
            ((fs.pos + 1 - p.length) % 8192) 0⟩,
         if (bumpF (outAC p (deltaAC p fs.st c)) (fs.pos + 1) fs.window).getD
             ((fs.pos + 1 - p.length) % 8192) 0 = (split_to_words p).length
           then [((fs.pos + 1 - p.length : Nat) : Int)] else [])
      else (⟨deltaAC p fs.st c, fs.pos + 1,
        bumpF (outAC p (deltaAC p fs.st c)) (fs.pos + 1) fs.window⟩, []) := rfl

/-- The circular-window increments of one flat step hit exactly the slots of
the newly confirmed segment occurrences: for a live alignment, the masked
relative position picks out its slot uniquely as long as the pattern is no
longer than the window. -/
theorem bumpF_card_eq (p u : List Nat) (c : Nat) (a : Nat) (hm8 : p.length ≤ 8192)
    (hlo : u.length + 1 - p.length ≤ a) (hhi : a < u.length + 1 - p.length + 8192) :
    ((outAC p (reachSpec p (u ++ [c]))).filter (fun e =>
        0 ≤ ((u.length + 1 : Nat) : Int) - e - 1 ∧
        (((u.length + 1 : Nat) : Int) - e - 1).toNat % 8192 = a % 8192)).card =
    ((outAC p (reachSpec p (u ++ [c]))).filter (fun e =>
        (a : Int) + e + 1 = (u.length : Int) + 1)).card := by
  congr 1
  apply Finset.filter_congr
  intro e he
  obtain ⟨w, hw, _⟩ := (outAC_reach p (u ++ [c]) e).1 he
  obtain ⟨en, he2, _, _, hwlen, helt, _, _, _⟩ := seg_entry p hw
  have hee : e = (en : Int) := he2
  subst hee
  constructor
  · rintro ⟨h1, h2⟩
    have ht : (((u.length + 1 : Nat) : Int) - (en : Int) - 1).toNat = u.length - en := by
      omega
    rw [ht] at h2
    omega
  · intro h
    push_cast at h
    constructor
    · omega
    · have ht : (((u.length + 1 : Nat) : Int) - (en : Int) - 1).toNat = u.length - en := by
        omega
      rw [ht]
      omega

/-- Invariant of the flat matcher after processing the prefix `u`: the state
is the reached label, the counter is the prefix length, and each of the 8192
circular slots holds the ghost slot value of the unique live alignment it
currently represents. -/
def InvF (p u : List Nat) (fs : MF) : Prop :=
  fs.st = reachSpec p u ∧
  fs.pos = u.length ∧
  fs.window.length = 8192 ∧
  ∀ a : Nat, u.length + 1 - p.length ≤ a → a < u.length + 1 - p.length + 8192 →
    fs.window.getD (a % 8192) 0 = slotVal p u a

theorem invF_init (p : List Nat) : InvF p [] ⟨[], 0, List.replicate 8192 0⟩ := by
  refine ⟨(reachSpec_nil p).symm, rfl, List.length_replicate _ _, ?_⟩
  intro a _ _
  rw [slotVal_nil]
  exact getD_replicate_zero 8192 (a % 8192) (Nat.mod_lt _ (by omega))

/-- One step of the flat matcher preserves the invariant and emits exactly the
specified offset (if any) for the newly completed alignment, provided the
pattern fits in the circular window. -/
theorem stepFlat_inv (p u : List Nat) (c : Nat) (fs : MF)
    (hm1 : 1 ≤ p.length) (hm8 : p.length ≤ 8192) (hInv : InvF p u fs) :
    InvF p (u ++ [c]) (stepFlat p fs c).1 ∧
    (stepFlat p fs c).2 =
      (if p.length ≤ u.length + 1 ∧ alignB p (u ++ [c]) (u.length + 1 - p.length) = true
        then [((u.length + 1 - p.length : Nat) : Int)] else []) := by
  obtain ⟨hst, hpos, hwl, hwin⟩ := hInv
  have hstN : isNodeB p fs.st = true := by rw [hst]; exact (reachSpec_spec p u).2.1
  have hst' : deltaAC p fs.st c = reachSpec p (u ++ [c]) := by
    rw [deltaAC_eq p fs.st c hstN, hst, ← reachSpec_snoc]
  have hw1 : ∀ a : Nat, u.length + 1 - p.length ≤ a →
      a < u.length + 1 - p.length + 8192 →
      (bumpF (outAC p (reachSpec p (u ++ [c]))) (u.length + 1) fs.window).getD
        (a % 8192) 0 = slotVal p (u ++ [c]) a := by
    intro a hlo hhi
    rw [bumpF_getD _ _ _ _ (by rw [hwl]; exact Nat.mod_lt _ (by omega))]
    rw [hwin a hlo hhi]
    rw [bumpF_card_eq p u c a hm8 hlo hhi]
    rw [card_filter_outAC p u c a, slotVal_snoc p u c a]
  rw [stepFlat_eq, hst', hpos]
  rcases Nat.lt_or_ge (u.length + 1) p.length with hk | hk
  · rw [if_neg (by omega)]
    refine ⟨⟨rfl, by simp, ?_, ?_⟩, ?_⟩
    · rw [bumpF_length, hwl]
    · intro a hlo hhi
      simp only [List.length_append, List.length_singleton] at hlo hhi
      exact hw1 a (by omega) (by omega)
    · rw [if_neg (fun hcon => absurd hcon.1 (by omega))]
  · rw [if_pos hk]
    have hfull := hw1 (u.length + 1 - p.length) (Nat.le_refl _) (by omega)
    have hiff : ((bumpF (outAC p (reachSpec p (u ++ [c]))) (u.length + 1) fs.window).getD
        ((u.length + 1 - p.length) % 8192) 0 = (split_to_words p).length) ↔
        alignB p (u ++ [c]) (u.length + 1 - p.length) = true := by
      rw [hfull]
      exact slotVal_full_iff p (u ++ [c]) _ (by simp; omega)
    refine ⟨⟨rfl, by simp, ?_, ?_⟩, ?_⟩
    · rw [List.length_set, bumpF_length, hwl]
    · intro a hlo hhi
      simp only [List.length_append, List.length_singleton] at hlo hhi
      rcases eq_or_ne a (u.length + 1 - p.length + 8192) with rfl | hne
      · have hidx : (u.length + 1 - p.length + 8192) % 8192 =
            (u.length + 1 - p.length) % 8192 := by omega
        rw [hidx, getD_set_self0 _ _ (by
          rw [bumpF_length, hwl]; exact Nat.mod_lt _ (by omega))]
        rw [slotVal_zero_of_big p (u ++ [c]) _ (by simp; omega)]
      · have hne2 : (u.length + 1 - p.length) % 8192 ≠ a % 8192 := by omega
        rw [getD_set_ne _ _ _ hne2]
        exact hw1 a (by omega) (by omega)
    · by_cases halign : alignB p (u ++ [c]) (u.length + 1 - p.length) = true
      · rw [if_pos (hiff.2 halign), if_pos ⟨hk, halign⟩]
      · rw [if_neg (by rw [hiff]; exact halign),
          if_neg (by rintro ⟨_, h2⟩; exact halign h2)]

theorem runFlat_snoc (p u : List Nat) (c : Nat) :
    runFlat p (u ++ [c]) = ((stepFlat p (runFlat p u).1 c).1,
      (runFlat p u).2 ++ (stepFlat p (runFlat p u).1 c).2) := by
  unfold runFlat
  rw [List.foldl_append]
  rfl

/-- Main run lemma for the flat matcher, patterns of positive length fitting
in the circular window. -/
theorem runFlat_inv (p t : List Nat) (hm1 : 1 ≤ p.length) (hm8 : p.length ≤ 8192) :
    InvF p t (runFlat p t).1 ∧ (runFlat p t).2 = specOffsets p t := by
  induction t using List.reverseRecOn with
  | nil =>
    refine ⟨invF_init p, ?_⟩
    rw [specOffsets_nil p hm1]
    rfl
  | append_singleton u c ih =>
    obtain ⟨hInv, hout⟩ := ih
    have hstep := stepFlat_inv p u c (runFlat p u).1 hm1 hm8 hInv
    rw [runFlat_snoc]
    refine ⟨hstep.1, ?_⟩
    show (runFlat p u).2 ++ (stepFlat p (runFlat p u).1 c).2 = specOffsets p (u ++ [c])
    rw [hout, hstep.2, specOffsets_snoc]

/-- Functional correctness of the flat matcher. -/
theorem runFlat_correct (p t : List Nat) (hm1 : 1 ≤ p.length) (hm8 : p.length ≤ 8192) :
    runFlatOut p t = specOffsets p t := (runFlat_inv p t hm1 hm8).2

theorem bumpF_empty_set (pos : Nat) (w : List Nat) : bumpF ∅ pos w = w := by
  unfold bumpF
  simp [List.ofFn_get]

/-- Main run lemma for the flat matcher, empty pattern: one offset per symbol,
namely the counter value `1, 2, …, n`. -/
theorem runFlat_empty (t : List Nat) :
    runFlat [] t = (⟨[], t.length, List.replicate 8192 0⟩,
      (List.range t.length).map (fun k => ((k + 1 : Nat) : Int))) := by
  induction t using List.reverseRecOn with
  | nil => rfl
  | append_singleton u c ih =>
    rw [runFlat_snoc, ih]
    have hstep : stepFlat [] (⟨[], u.length, List.replicate 8192 0⟩ : MF) c =
        (⟨[], u.length + 1, List.replicate 8192 0⟩, [((u.length + 1 : Nat) : Int)]) := by
      rw [stepFlat_eq]
      simp only [List.length_nil, Nat.sub_zero]
      rw [if_pos (Nat.zero_le _)]
      rw [show deltaAC [] ([] : Label) c = [] from rfl]
      rw [show outAC [] ([] : Label) = ∅ from rfl]
      rw [bumpF_empty_set]
      rw [if_pos (by
        rw [getD_replicate_zero 8192 _ (Nat.mod_lt _ (by omega))]
        rfl)]
      rw [set_replicate_zero]
    rw [hstep]
    simp only [List.length_append, List.length_singleton]
    rw [List.range_succ, List.map_append]
    rfl

/-! ### Termination of the failure walk, and all-wildcard patterns -/

theorem gotoMemo_nil_isSome (L : LinkTable) (c : Nat) :
    (gotoMemo L [] c).isSome = true := by
  unfold gotoMemo
  cases h : lookupL L [] c with
  | some t => rfl
  | none => rfl

/-- The failure walk of `process` succeeds whatever the current link table
holds, with fuel one more than the state's depth: each failure step strictly
decreases the depth, and at the root the goto always answers. -/
theorem walk17_isSome (p : List Nat) (L : LinkTable) :
    ∀ fuel s c, s.length < fuel → (walk17 p L fuel s c).isSome = true := by
  intro fuel
  induction fuel with
  | zero => intro s c h; omega
  | succ n ih =>
    intro s c h
    have hunf : walk17 p L (n + 1) s c = (match gotoMemo L s c with
        | some t => some (([] : List Label), t)
        | none => (walk17 p L n (failAC p s) c).map (fun pr => (s :: pr.1, pr.2))) := rfl
    cases hg : gotoMemo L s c with
    | some t =>
      rw [hunf, hg]
      rfl
    | none =>
      have hsne : s ≠ [] := by
        intro h0
        subst h0
        have := gotoMemo_nil_isSome L c
        rw [hg] at this
        exact absurd this (by simp)
      have hlt : (failAC p s).length < n := by
        have h2 : (failSpec p s).length < s.length := failSpec_length_lt hsne
        rw [← failAC_eq] at h2
        omega
      have h2 := ih (failAC p s) c hlt
      rw [hunf, hg]
      show (Option.map (fun pr => (s :: pr.1, pr.2))
        (walk17 p L n (failAC p s) c)).isSome = true
      cases hw : walk17 p L n (failAC p s) c with
      | some pr => rfl
      | none =>
        rw [hw] at h2
        exact absurd h2 (by simp)

theorem split_nil_of_all_wildcard (p : List Nat)
    (h : ∀ j, j < p.length → p.getD j 0 = wildcard) : split_to_words p = [] := by
  by_contra hne
  obtain ⟨pr, hpr⟩ := List.exists_mem_of_ne_nil _ hne
  obtain ⟨e, _, hne', hchars, hwlen, helt, hagree, _, _⟩ := seg_entry p hpr
  obtain ⟨a, l, hal⟩ : ∃ a l, pr.1 = a :: l := by
    cases hpl : pr.1 with
    | nil => exact absurd hpl hne'
    | cons a l => exact ⟨a, l, rfl⟩
  have ha : a ≠ wildcard := hchars a (by rw [hal]; exact List.mem_cons_self a l)
  have hlen1 : 1 ≤ pr.1.length := by rw [hal]; simp
  have h0 := hagree 0 (by omega)
  rw [Nat.add_zero, hal] at h0
  have hj : e + 1 - pr.1.length < p.length := by omega
  rw [hal] at hj
  have := h (e + 1 - (a :: l).length) hj
  rw [h0] at this
  exact absurd this ha

/-! ### The claims -/

/-- C1: for every pattern of positive length and every text, the offsets
emitted by processing the text one symbol at a time are exactly the increasing
list of wildcard-matching alignments; the pointer program never dies, and the
flat program agrees whenever the pattern fits its fixed circular window (the
programs' documented limit `m ≤ 5000` is well inside `8192`).  In particular
for pattern `ab??aba` and text `ababacaba` both emit exactly `[2]` (see the
witness). -/
theorem C1_match_offsets (p t : List Nat) (hm : 1 ≤ p.length) :
    run17Out p t = some (specOffsets p t) ∧
    (p.length ≤ 8192 → runFlatOut p t = specOffsets p t) :=
  ⟨run17_correct p t hm, fun hm8 => runFlat_correct p t hm hm8⟩

/-- Witness for C1 at the worked example: pattern `ab??aba`, text `ababacaba`,
match exactly at offset 2. -/
theorem C1_match_offsets_witness :
    1 ≤ ([97, 98, 63, 63, 97, 98, 97] : List Nat).length ∧
    run17Out [97, 98, 63, 63, 97, 98, 97] [97, 98, 97, 98, 97, 99, 97, 98, 97] =
      some [2] ∧
    runFlatOut [97, 98, 63, 63, 97, 98, 97] [97, 98, 97, 98, 97, 99, 97, 98, 97] =
      [2] := by
  have h := C1_match_offsets [97, 98, 63, 63, 97, 98, 97]
    [97, 98, 97, 98, 97, 99, 97, 98, 97] (by decide)
  refine ⟨by decide, ?_, ?_⟩
  · rw [h.1]
    rfl
  · rw [h.2 (by decide)]
    rfl

/-- C2 (amended): the two programs emit identical offset sequences for every
pattern of positive length fitting the flat window and every text; the
original unconditional claim fails for the empty pattern, where the two
programs disagree on every non-empty text (see the counterexample). -/
theorem C2_refinement (p t : List Nat) (hm : 1 ≤ p.length) (hm8 : p.length ≤ 8192) :
    run17Out p t = some (runFlatOut p t) := by
  rw [run17_correct p t hm, runFlat_correct p t hm hm8]

/-- C2 counterexample: on the empty pattern the pointer program prints `0` for
a one-symbol text while the flat program prints `1`. -/
theorem C2_refinement_counterexample :
    run17Out [] [97] = some [0] ∧ runFlatOut [] [97] = [1] ∧
    run17Out [] [97] ≠ some (runFlatOut [] [97]) := by
  have hf : runFlatOut [] [97] = [1] := by
    unfold runFlatOut
    rw [runFlat_empty [97]]
    rfl
  refine ⟨by decide, hf, ?_⟩
  rw [hf]
  decide

/-- Witness for C2 at pattern `a`, text `aba`. -/
theorem C2_refinement_witness :
    (1 ≤ ([97] : List Nat).length ∧ ([97] : List Nat).length ≤ 8192) ∧
    run17Out [97] [97, 98, 97] = some (runFlatOut [97] [97, 98, 97]) :=
  ⟨⟨by decide, by decide⟩, C2_refinement [97] [97, 98, 97] (by decide) (by decide)⟩

/-- C3 (amended): only the flat program's `do_bfs` pass makes the transition
function total — the completed transition `deltaAC` maps every state and every
symbol to a state of the automaton and agrees with the specification
transition, so the flat `main` loop does one table step per symbol with no
failure walk.  The pointer program's goto stays partial after `build()` and
its `process` does traverse failure links at match time (see the
counterexample). -/
theorem C3_total_transition (p : List Nat) (s : Label) (c : Nat)
    (hs : isNodeB p s = true) :
    isNodeB p (deltaAC p s c) = true ∧ deltaAC p s c = extN p s c :=
  ⟨deltaAC_isNodeB p s c hs, deltaAC_eq p s c hs⟩

/-- C3 counterexample: after building `17.cpp`'s machine for pattern `ab`, the
node `a` has no goto on `a` (the sentinel is returned), and processing symbol
`a` there walks one failure link (the path collected by `process` is
non-empty). -/
theorem C3_total_transition_counterexample :
    isNodeB [97, 98] [97] = true ∧ gotoN [97, 98] [97] 97 = none ∧
    walk17 [97, 98] (buildTrie [97, 98]).links 2 [97] 97 = some ([[97]], [97]) := by
  decide

/-- Witness for C3 at pattern `ab`, state `a`, symbol `a`. -/
theorem C3_total_transition_witness :
    isNodeB [97, 98] [97] = true ∧
    (isNodeB [97, 98] (deltaAC [97, 98] [97] 97) = true ∧
      deltaAC [97, 98] [97] 97 = extN [97, 98] [97] 97) :=
  ⟨by decide, C3_total_transition [97, 98] [97] 97 (by decide)⟩

/-- C4 (amended): `17.cpp` does mutate the automaton while matching — the
memoization `node->links[c] = state_` in `process` grows goto tables after
construction (see the counterexample) — but the mutation is semantically
transparent: after any successful run every link-table entry still maps a
state of the automaton to its correct completed transition, and every
original trie edge is still present. -/
theorem C4_mutation_transparent (p t : List Nat) (ms : M17) (out : List Int)
    (hW : split_to_words p ≠ []) (h : run17 p t = some (ms, out)) :
    InvL p ms.L := by
  obtain ⟨ms', hrun, hInv⟩ := run17_words p t hW
  have h2 : (ms, out) = (ms', specOffsets p t) := Option.some.inj (h.symm.trans hrun)
  have hms : ms = ms' := congrArg Prod.fst h2
  rw [hms]
  exact hInv.1

/-- C4 counterexample: pattern `ab`, text `aa` — after two symbols the link
tables have grown by a memoized entry `((a, a), a)` absent from the freshly
built trie, so matching is not read-only on the automaton. -/
theorem C4_mutation_transparent_counterexample :
    (run17 [97, 98] [97, 97]).map (fun pr => pr.1.L) =
      some [(([], 97), [97]), (([97], 98), [97, 98]), (([97], 97), [97])] ∧
    (buildTrie [97, 98]).links = [(([], 97), [97]), (([97], 98), [97, 98])] ∧
    (run17 [97, 98] [97, 97]).map (fun pr => pr.1.L) ≠
      some (buildTrie [97, 98]).links := by decide

/-- Witness for C4 at pattern `a`, empty text. -/
theorem C4_mutation_transparent_witness :
    split_to_words [97] ≠ [] ∧ InvL [97] (initM17 [97]).L :=
  ⟨by decide, C4_mutation_transparent [97] [] (initM17 [97]) [] (by decide) rfl⟩

/-- C5 (amended): for the empty pattern and a text of length `n` the pointer
program reports the `n` offsets `0, 1, …, n-1` (it prints `counter - 1` once
per symbol) and the flat program reports `1, 2, …, n`; neither emits the
claimed `n + 1` offsets `0..n` (see the counterexample). -/
theorem C5_empty_pattern (t : List Nat) :
    run17Out [] t = some ((List.range t.length).map Int.ofNat) ∧
    runFlatOut [] t = (List.range t.length).map (fun k => ((k + 1 : Nat) : Int)) := by
  constructor
  · unfold run17Out
    rw [run17_empty t]
    rfl
  · unfold runFlatOut
    rw [runFlat_empty t]

/-- C5 counterexample: for a two-symbol text the claim predicts the offsets
`[0, 1, 2]`; the pointer program prints `[0, 1]` and the flat one `[1, 2]`. -/
theorem C5_empty_pattern_counterexample :
    run17Out [] [97, 98] = some [0, 1] ∧ runFlatOut [] [97, 98] = [1, 2] ∧
    run17Out [] [97, 98] ≠ some [0, 1, 2] ∧ runFlatOut [] [97, 98] ≠ [0, 1, 2] := by
  have hf : runFlatOut [] [97, 98] = [1, 2] := by
    unfold runFlatOut
    rw [runFlat_empty [97, 98]]
    rfl
  exact ⟨by decide, hf, by decide, by rw [hf]; decide⟩

/-- C6: the failure and output structure after `build_failure`: children of
the root fail to the root; a state `s ++ [c]` fails to the completed
transition on `c` from the failure state of `s`, its output set is its own
output united with its failure state's output, and it is terminal exactly
when its output set is non-empty. -/
theorem C6_failure_structure (p : List Nat) :
    (∀ c : Nat, isNodeB p [c] = true → failAC p [c] = []) ∧
    (∀ (s : Label) (c : Nat), s ≠ [] → isNodeB p (s ++ [c]) = true →
      failAC p (s ++ [c]) = extN p (failAC p s) c ∧
      outAC p (s ++ [c]) = ownOut p (s ++ [c]) ∪ outAC p (failAC p (s ++ [c])) ∧
      (terminalAC p (s ++ [c]) = true ↔ outAC p (s ++ [c]) ≠ ∅)) := by
  constructor
  · intro c _
    rw [failAC_eq]
    rw [show ([c] : Label) = c :: [] from rfl, failSpec_cons, reachSpec_nil]
  · intro s c hs _
    refine ⟨?_, ?_, terminalAC_iff p (s ++ [c])⟩
    · rw [failAC_eq, failAC_eq, failSpec_snoc p s c hs]
    · rw [outAC_eq, outAC_eq, failAC_eq]
      exact outSpec_rec p (s ++ [c]) (by simp)

/-- Witness for C6 at pattern `ab`: the child `a` of the root, and the state
`ab`. -/
theorem C6_failure_structure_witness :
    (isNodeB [97, 98] [97] = true ∧ failAC [97, 98] [97] = []) ∧
    ([97] ≠ ([] : Label) ∧ isNodeB [97, 98] ([97] ++ [98]) = true ∧
      (failAC [97, 98] ([97] ++ [98]) = extN [97, 98] (failAC [97, 98] [97]) 98 ∧
       outAC [97, 98] ([97] ++ [98]) = ownOut [97, 98] ([97] ++ [98]) ∪
         outAC [97, 98] (failAC [97, 98] ([97] ++ [98])) ∧
       (terminalAC [97, 98] ([97] ++ [98]) = true ↔
         outAC [97, 98] ([97] ++ [98]) ≠ ∅))) :=
  ⟨⟨by decide, (C6_failure_structure [97, 98]).1 97 (by decide)⟩,
   ⟨by decide, by decide,
    (C6_failure_structure [97, 98]).2 [97] 98 (by decide) (by decide)⟩⟩

/-- C7: the segmenter returns exactly the maximal wildcard-free runs of the
pattern in left-to-right order (strictly increasing end offsets), each paired
with the 0-based index of its last symbol, covering every non-wildcard
position; all-wildcard patterns and the empty pattern yield the empty list. -/
theorem C7_segmenter (p : List Nat) :
    (∀ pr ∈ split_to_words p, SegEntry p pr) ∧
    (split_to_words p).Pairwise (fun pr1 pr2 => pr1.2 < pr2.2) ∧
    (∀ j, j < p.length → p.getD j 0 ≠ wildcard →
      ∃ pr ∈ split_to_words p, SegCovers pr j) ∧
    ((∀ j, j < p.length → p.getD j 0 = wildcard) → split_to_words p = []) ∧
    (p = [] → split_to_words p = []) := by
  refine ⟨fun pr hpr => seg_entry p hpr, seg_pairwise p, (split_bundle p).2.2,
    split_nil_of_all_wildcard p, ?_⟩
  rintro rfl
  rfl

/-- Witness for C7 at patterns `a?b` and `??`. -/
theorem C7_segmenter_witness :
    SegEntry [97, 63, 98] ([97], 0) ∧
    (∃ pr ∈ split_to_words [97, 63, 98], SegCovers pr 2) ∧
    split_to_words [63, 63] = [] :=
  ⟨(C7_segmenter [97, 63, 98]).1 ([97], 0) (by decide),
   (C7_segmenter [97, 63, 98]).2.2.1 2 (by decide) (by decide),
   (C7_segmenter [63, 63]).2.2.2.1 (by decide)⟩

/-- C8: with at least one segment, the matcher never dies on any text, and
every relative window position computed by `match` from an output entry of
the state reached after one more symbol is below the window length — so the
window access is in bounds whenever the relative position is non-negative. -/
theorem C8_window_bounds (p : List Nat) (hW : split_to_words p ≠ []) :
    (∀ t, (run17 p t).isSome = true) ∧
    (∀ (u : List Nat) (c : Nat) (e : Int), e ∈ outAC p (reachSpec p (u ++ [c])) →
      relOf (u.length + 1) (u.length + 1 - p.length) e < (p.length : Int)) := by
  constructor
  · intro t
    obtain ⟨ms, hrun, _⟩ := run17_words p t hW
    rw [hrun]
    rfl
  · intro u c e he
    have hm : 1 ≤ p.length := length_pos_of_split_ne_nil p hW
    obtain ⟨w, hw, _⟩ := (outAC_reach p (u ++ [c]) e).1 he
    obtain ⟨en, he2, _, _, _, helt, _, _, _⟩ := seg_entry p hw
    have hee : e = (en : Int) := he2
    subst hee
    unfold relOf
    omega

/-- Witness for C8 at pattern `a`, text `aa`. -/
theorem C8_window_bounds_witness :
    split_to_words [97] ≠ [] ∧ (run17 [97] [97, 97]).isSome = true :=
  ⟨by decide, (C8_window_bounds [97] (by decide)).1 [97, 97]⟩

/-- C9: after processing any prefix of any text (any successful run), no
window slot exceeds the pattern's total segment count. -/
theorem C9_window_le_segments (p t : List Nat) (ms : M17) (out : List Int)
    (hW : split_to_words p ≠ []) (h : run17 p t = some (ms, out)) :
    ∀ i : Nat, ms.window.getD i 0 ≤ (split_to_words p).length := by
  obtain ⟨ms', hrun, hInv⟩ := run17_words p t hW
  have h2 : (ms, out) = (ms', specOffsets p t) := Option.some.inj (h.symm.trans hrun)
  have hms : ms = ms' := congrArg Prod.fst h2
  obtain ⟨_, _, _, _, hwl, hwin⟩ := hInv
  intro i
  rcases Nat.lt_or_ge i p.length with hi | hi
  · rw [hms, hwin i hi]
    exact slotVal_le p t _
  · rw [hms, List.getD_eq_default _ _ (by rw [hwl]; omega)]
    exact Nat.zero_le _

/-- Witness for C9 at pattern `a`, empty text. -/
theorem C9_window_le_segments_witness :
    split_to_words [97] ≠ [] ∧
    ∀ i : Nat, (initM17 [97]).window.getD i 0 ≤ (split_to_words [97]).length :=
  ⟨by decide, C9_window_le_segments [97] [] (initM17 [97]) [] (by decide) rfl⟩

/-- C10: the failure walks terminate: every failure link strictly decreases
the state's depth, the goto at the root never returns the sentinel, and the
walk of `process` succeeds with fuel one more than the state's depth whatever
the current link table holds — the loop condition eventually fails without
following a failure link out of the root. -/
theorem C10_walk_termination (p : List Nat) :
    (∀ s : Label, s ≠ [] → (failAC p s).length < s.length) ∧
    (∀ c : Nat, gotoN p [] c ≠ none) ∧
    (∀ (L : LinkTable) (s : Label) (c : Nat),
      (walk17 p L (s.length + 1) s c).isSome = true) := by
  refine ⟨?_, ?_, ?_⟩
  · intro s hs
    rw [failAC_eq]
    exact failSpec_length_lt hs
  · intro c
    unfold gotoN
    by_cases h : isNodeB p ([] ++ [c]) = true
    · rw [if_pos h]
      simp
    · rw [if_neg h, if_pos rfl]
      simp
  · intro L s c
    exact walk17_isSome p L (s.length + 1) s c (Nat.lt_succ_self _)

/-- Witness for C10 at pattern `ab`, state `ab`, symbol `a`, empty table. -/
theorem C10_walk_termination_witness :
    ([97, 98] ≠ ([] : Label) ∧
      (failAC [97, 98] [97, 98]).length < ([97, 98] : Label).length) ∧
    gotoN [97, 98] [] 97 ≠ none ∧
    (walk17 [97, 98] [] 3 [97, 98] 97).isSome = true :=
  ⟨⟨by decide, (C10_walk_termination [97, 98]).1 [97, 98] (by decide)⟩,
   (C10_walk_termination [97, 98]).2.1 97,
   (C10_walk_termination [97, 98]).2.2 [] [97, 98] 97⟩
